import Mathlib

/-!
Verification of the circuit-lab simulation core.

This file gives a shallow embedding of the repository's source
(`unionFind.js` and the circuit simulator module, both contained in
`src/unnamed/part_000`) and proves properties of that embedding.

Modelling conventions:
* JavaScript `Map` objects are embedded as association lists in insertion
  order (`Map.set` updates an existing key in place, otherwise appends;
  `Map.get` returns `Option`).
* JavaScript numbers are embedded as rationals (`ℚ`); the arithmetic used
  by the simulator is `+ - * / abs min max` and comparisons only.
* The external MNA engine `cktsim.js` is not part of the source tree; it is
  embedded from the spec's solver contract (§4.3/§4.4) as a netlist value
  type plus an abstract solver outcome parameter.
* The recursive `find` of the union-find uses an explicit fuel argument
  (`parent.size + 1`); under the acyclicity invariant proved below this
  fuel is never exhausted, so the embedding computes exactly what the
  JavaScript recursion computes.
-/

namespace CircuitLab

/- The arithmetic kernel of `ℚ` is `@[irreducible]` in this toolchain; the
concrete evaluations below (counterexamples and witnesses) need it to
unfold. -/
attribute [local semireducible] Rat.add Rat.sub Rat.mul Rat.inv Rat.ofScientific

/-! ### Association lists embedding JavaScript `Map` -/

/-- `Map.get`: first binding of the key, if any. -/
def alGet {α : Type} (l : List (String × α)) (k : String) : Option α :=
  match l with
  | [] => none
  | (k2, v) :: rest => if k2 = k then some v else alGet rest k

/-- `Map.set`: update an existing binding in place, otherwise append. -/
def alSet {α : Type} (l : List (String × α)) (k : String) (v : α) :
    List (String × α) :=
  if (alGet l k).isSome then
    l.map (fun p => if p.1 = k then (k, v) else p)
  else l ++ [(k, v)]

/-! ### Union-find (`unionFind.js`) -/

/-- The two `Map`s held by a `UnionFind` instance. -/
structure UFState where
  parent : List (String × String)
  rank : List (String × Nat)
deriving Repr, DecidableEq

namespace UnionFind

/-- `new UnionFind()`. -/
def empty : UFState := ⟨[], []⟩

/-- `makeSet(x)`: idempotent registration. -/
def makeSet (s : UFState) (x : String) : UFState :=
  if (alGet s.parent x).isSome then s
  else { parent := s.parent ++ [(x, x)], rank := s.rank ++ [(x, 0)] }

/-- Fuel-indexed body of `find(x)` (registration, recursion into the
parent, path compression).  The fuel only bounds the recursion depth; it
is chosen large enough (see `findAux_spec`) that it is never exhausted on
well-formed states. -/
def findAux : Nat → UFState → String → String × UFState
  | 0, s, x => (x, s)
  | fuel+1, s, x =>
    let s1 := makeSet s x
    match alGet s1.parent x with
    | none => (x, s1)
    | some p =>
      if p = x then (x, s1)
      else
        let rs := findAux fuel s1 p
        (rs.1, { rs.2 with parent := alSet rs.2.parent x rs.1 })

/-- `find(x)`. -/
def find (s : UFState) (x : String) : String × UFState :=
  findAux (s.parent.length + 1) s x

/-- `union(x, y)` with union by rank. -/
def union (s : UFState) (x y : String) : UFState :=
  let fx := find s x
  let fy := find fx.2 y
  let rootX := fx.1
  let rootY := fy.1
  let s2 := fy.2
  if rootX = rootY then s2
  else
    let rankX := (alGet s2.rank rootX).getD 0
    let rankY := (alGet s2.rank rootY).getD 0
    if rankX < rankY then { s2 with parent := alSet s2.parent rootX rootY }
    else if rankY < rankX then { s2 with parent := alSet s2.parent rootY rootX }
    else { parent := alSet s2.parent rootY rootX,
           rank := alSet s2.rank rootX (rankX + 1) }

/-- `connected(x, y)`: `find(x) === find(y)` (left argument evaluated
first, both calls mutate the instance). -/
def connected (s : UFState) (x y : String) : Bool × UFState :=
  let fx := find s x
  let fy := find fx.2 y
  (fx.1 == fy.1, fy.2)

/-- `getRoots()`: iterate the parent keys in insertion order, collecting
`find` results into an insertion-ordered set.  (`find` on a registered key
neither adds nor removes keys, so iterating a snapshot of the keys matches
the live JavaScript iterator.) -/
def getRoots (s : UFState) : List String × UFState :=
  (s.parent.map Prod.fst).foldl
    (fun acc k =>
      let fr := find acc.2 k
      (if acc.1.contains fr.1 then acc.1 else acc.1 ++ [fr.1], fr.2))
    ([], s)

end UnionFind

/-! ### Semantic functions on parent maps (proof infrastructure) -/

/-- Keys of a parent map. -/
def keysOf (p : List (String × String)) : List String := p.map Prod.fst

/-- Parent pointer; an unregistered id is its own parent. -/
def parentOf (p : List (String × String)) (x : String) : String :=
  (alGet p x).getD x

/-- Iterated parent pointer. -/
def iterP (p : List (String × String)) : Nat → String → String
  | 0, x => x
  | n+1, x => iterP p n (parentOf p x)

/-- Chase parent pointers to a fixed point, with fuel. -/
def rootAux (p : List (String × String)) : Nat → String → String
  | 0, x => x
  | f+1, x => if parentOf p x = x then x else rootAux p f (parentOf p x)

/-- The root of `x` in parent map `p` (correct on well-formed maps). -/
def rootOf (p : List (String × String)) (x : String) : String :=
  rootAux p (p.length + 1) x

/-- `x` chases up to the root `r`. -/
def Reaches (p : List (String × String)) (x r : String) : Prop :=
  (∃ n, iterP p n x = r) ∧ parentOf p r = r

/-- Well-formedness of a parent map: parents of registered ids are
registered, and every chain of parent pointers reaches a fixed point. -/
structure WFP (p : List (String × String)) : Prop where
  closed : ∀ x q, (x, q) ∈ p → q ∈ keysOf p
  reach : ∀ x, ∃ n, parentOf p (iterP p n x) = iterP p n x

/-- One undirected edge step of the union graph. -/
def stepRel (edges : List (String × String)) (x y : String) : Prop :=
  (x, y) ∈ edges ∨ (y, x) ∈ edges

/-- Being in the same connected component of the undirected graph whose
edges are the argument pairs of the `union` calls made so far. -/
def SameComp (edges : List (String × String)) : String → String → Prop :=
  Relation.ReflTransGen (stepRel edges)

/-- A fresh `UnionFind` instance fed a sequence of `union(a, b)` calls. -/
def runUnions (ops : List (String × String)) : UFState :=
  ops.foldl (fun s e => UnionFind.union s e.1 e.2) UnionFind.empty

/-- The inductive invariant tying a union-find state to the union graph:
the state is well-formed and root equality is exactly the component
relation of the edges unioned so far. -/
def UFInv (edges : List (String × String)) (s : UFState) : Prop :=
  WFP s.parent ∧
  ∀ x y, (rootOf s.parent x = rootOf s.parent y ↔ SameComp edges x y)

/-! ### Data model of the simulator module -/

/-- A terminal/connection point (`node` objects of the visual model). -/
structure Node where
  id : String
  componentId : String
  role : Option String
deriving Repr, DecidableEq

/-- A visual component; `type` is the loosely-typed tag used by the source
(`"battery"`, `"bulb"`, `"potentiometer"`), `resistance` is the optional
numeric field read off potentiometers (`pot.resistance`). -/
structure Component where
  id : String
  type : String
  resistance : Option ℚ := none
deriving Repr, DecidableEq

/-- A wire (`connection` objects). -/
structure Connection where
  fromNodeId : String
  toNodeId : String
deriving Repr, DecidableEq

/-- The argument of `simulateCircuit`. -/
structure CircuitInput where
  nodes : List Node
  connections : List Connection
  components : List Component
deriving Repr

/-- Per-bulb state in the result.  The initial default object has only the
four fields `isOn/current/voltage/power`; the remaining fields are only
present once computed, hence `Option`. -/
structure BulbState where
  isOn : Bool
  isBurnedOut : Option Bool
  brightness : Option ℚ
  current : ℚ
  voltage : ℚ
  voltageNode1 : Option ℚ
  voltageNode2 : Option ℚ
  power : ℚ
deriving Repr, DecidableEq

/-- The result record built by `simulateCircuit`. -/
structure SimulationResult where
  hasClosedLoop : Bool
  bulbsOnCount : Nat
  bulbStates : List (String × BulbState)
  nodeVoltages : List (String × ℚ)
  totalCurrent : ℚ
  batteryIndices : List Nat
deriving Repr, DecidableEq

/-- Circuit constants of the source module. -/
def BATTERY_VOLTAGE : ℚ := 9

/-- Battery internal series resistance (ohms). -/
def BATTERY_INTERNAL_RESISTANCE : ℚ := 0.1

/-- Bulb resistance (ohms). -/
def BULB_RESISTANCE : ℚ := 500

/-- Minimum current for a bulb to be on (amps). -/
def CURRENT_THRESHOLD : ℚ := 0.001

/-- Normal operating current (amps). -/
def NORMAL_CURRENT : ℚ := 0.018

/-- Burnout current (amps). -/
def BURNOUT_CURRENT : ℚ := 0.05

/-- No-load short-circuit heuristic threshold (amps), declared inline in
`simulateCircuit`. -/
def SHORT_CIRCUIT_CURRENT : ℚ := 0.1

/-! ### The abstract solver boundary -/

/-- A netlist element recorded through `ckt.v` / `ckt.r`.  Node arguments
are carried as `Option Int` because the source computes them through map
lookups that can in principle miss. -/
inductive CktElement
  | vsrc (nPlus nMinus : Option Int) (volts : ℚ) (name : String)
  | res (n1 n2 : Option Int) (ohms : ℚ) (name : String)
deriving Repr, DecidableEq

/-- Modelled from the spec: the MNA engine `cktsim.js` imported by the
simulator module is absent from the source tree (spec §1 and §4.4 treat it
as an external collaborator).  Its circuit object is modelled as a value
type following §4.3: `gnd_node()` is the fixed ground index `-1` (the
source comments state this mapping), `node(name, T_VOLTAGE)` mints fresh
non-negative node indices in registration order (§4.3 step 5), and
`v`/`r` record netlist elements in call order.  The numeric value the
source passes as `String(value)` is recorded as the rational it denotes. -/
structure Ckt where
  nodeNames : List (String × Int)
  nextIndex : Int
  elements : List CktElement
deriving Repr, DecidableEq

/-- `new cktsim.Circuit()`. -/
def Ckt.empty : Ckt := ⟨[], 0, []⟩

/-- `ckt.gnd_node()`. -/
def Ckt.gndNode : Int := -1

/-- `ckt.node(name, T_VOLTAGE)`: returns the minted index. -/
def Ckt.node (c : Ckt) (name : String) : Int × Ckt :=
  (c.nextIndex, ⟨c.nodeNames ++ [(name, c.nextIndex)], c.nextIndex + 1, c.elements⟩)

/-- `ckt.v(n1, n2, volts, name)`. -/
def Ckt.v (c : Ckt) (n1 n2 : Option Int) (volts : ℚ) (name : String) : Ckt :=
  { c with elements := c.elements ++ [CktElement.vsrc n1 n2 volts name] }

/-- `ckt.r(n1, n2, ohms, name)`. -/
def Ckt.r (c : Ckt) (n1 n2 : Option Int) (ohms : ℚ) (name : String) : Ckt :=
  { c with elements := c.elements ++ [CktElement.res n1 n2 ohms name] }

/-- Modelled from the spec (§4.4): the outcome of `ckt.dc()`.  The solver
either returns a map from names to numbers (net voltages plus `I(...)`
branch currents), returns `undefined` (`fails`), or raises (`throws`);
per §4.4 well-typed solver output makes the source's result extraction
total, so `throws` covers the exceptions caught by the top-level handler. -/
inductive SolverOutcome
  | throws
  | fails
  | success (dcResult : List (String × ℚ))
deriving Repr, DecidableEq

/-! ### The translation pipeline (`simulateCircuit` helpers) -/

/-- `buildElectricalNets(nodes, connections)`: register every node, union
wire endpoints, then build the node→net-root map (each `find` call
mutating the instance). -/
def buildElectricalNets (nodes : List Node) (connections : List Connection) :
    UFState × List (String × String) :=
  let uf0 := nodes.foldl (fun s n => UnionFind.makeSet s n.id) UnionFind.empty
  let uf1 := connections.foldl
    (fun s c => UnionFind.union s c.fromNodeId c.toNodeId) uf0
  nodes.foldl
    (fun acc n =>
      let fr := UnionFind.find acc.1 n.id
      (fr.2, alSet acc.2 n.id fr.1))
    (uf1, [])

/-- The record returned by `assignNetNames` (the mutated union-find
instance is threaded through for faithfulness). -/
structure NetNaming where
  netNames : List (String × String)
  groundNet : Option String
  uf : UFState
deriving Repr

/-- One step of the root-naming loop of `assignNetNames`: ground gets
`"gnd"`, every other root consumes the counter as `"net<k>"`. -/
def netNameStep (groundNet : Option String)
    (acc : List (String × String) × Nat) (root : String) :
    List (String × String) × Nat :=
  if some root = groundNet then (alSet acc.1 root "gnd", acc.2)
  else (alSet acc.1 root ("net" ++ Nat.repr acc.2), acc.2 + 1)

/-- `assignNetNames(uf, nodes)`: resolve the root of the first
`battery_minus` node as ground, then name every root in `getRoots()`
order (`"gnd"` for ground, `"net<k>"` otherwise with a 1-based counter). -/
def assignNetNames (uf : UFState) (nodes : List Node) : NetNaming :=
  let g : Option String × UFState :=
    match nodes.find? (fun n => n.role == some "battery_minus") with
    | some n =>
      let fr := UnionFind.find uf n.id
      (some fr.1, fr.2)
    | none => (none, uf)
  let rts := UnionFind.getRoots g.2
  let nn := (rts.1.foldl (netNameStep g.1) ([], 1)).1
  ⟨nn, g.1, rts.2⟩

/-- `getNetName(nodeId, nodeToNet, netNames)`; `none` models the
JavaScript `undefined`, and the `|| netRoot` fallback treats a missing or
empty name as falsy. -/
def getNetName (nodeId : String) (nodeToNet netNames : List (String × String)) :
    Option String :=
  match alGet nodeToNet nodeId with
  | none => none
  | some netRoot =>
    match alGet netNames netRoot with
    | some nm => if nm = "" then some netRoot else some nm
    | none => some netRoot

/-- One step of the `batteries.forEach` loop of `getShortedBatteryIds`:
record the battery when its two role-tagged terminals map to the same net
root (the JavaScript `Set` is modelled as a duplicate-free list in
insertion order). -/
def shortedStep (nodes : List Node) (nodeToNet : List (String × String))
    (shorted : List String) (b : Component) : List String :=
  let batteryNodes := nodes.filter (fun n => n.componentId == b.id)
  match batteryNodes.find? (fun n => n.role == some "battery_plus"),
        batteryNodes.find? (fun n => n.role == some "battery_minus") with
  | some plusNode, some minusNode =>
    if alGet nodeToNet plusNode.id = alGet nodeToNet minusNode.id then
      (if shorted.contains b.id then shorted else shorted ++ [b.id])
    else shorted
  | _, _ => shorted

/-- `getShortedBatteryIds(components, nodes, nodeToNet)`: batteries whose
plus and minus terminals resolve to the same net. -/
def getShortedBatteryIds (components : List Component) (nodes : List Node)
    (nodeToNet : List (String × String)) : List String :=
  (components.filter (fun c => c.type == "battery")).foldl
    (shortedStep nodes nodeToNet) []

/-- `getAllBatteryIndices(components)`: 1-based positions of all
batteries. -/
def getAllBatteryIndices (components : List Component) : List Nat :=
  ((components.filter (fun c => c.type == "battery")).enum).map (fun p => p.1 + 1)

/-- The helper `getNodeIndex(nodeId)` closed over in `simulateCircuit`. -/
def getNodeIndex (nodeId : String) (nodeToNet netNames : List (String × String))
    (netToIndex : List (String × Int)) : Option Int :=
  match getNetName nodeId nodeToNet netNames with
  | none => none
  | some nm => alGet netToIndex nm

/-- One step of the `batteries.forEach((battery, index) => ...)` loop:
skip (but flag) shorted batteries, otherwise add the internal node, the
9 V source and the 0.1 Ω internal resistor. -/
def addBattery (nodes : List Node) (nodeToNet netNames : List (String × String))
    (netToIndex : List (String × Int)) (shortedIds : List String)
    (acc : Ckt × List Nat) (ib : Nat × Component) : Ckt × List Nat :=
  let index := ib.1
  let battery := ib.2
  if shortedIds.contains battery.id then (acc.1, acc.2 ++ [index + 1])
  else
    let batteryNodes := nodes.filter (fun n => n.componentId == battery.id)
    match batteryNodes.find? (fun n => n.role == some "battery_plus"),
          batteryNodes.find? (fun n => n.role == some "battery_minus") with
    | some plusNode, some minusNode =>
      let plusIdx := getNodeIndex plusNode.id nodeToNet netNames netToIndex
      let minusIdx := getNodeIndex minusNode.id nodeToNet netNames netToIndex
      let internal := acc.1.node ("_" ++ battery.id ++ "_internal")
      let c1 := internal.2.v (some internal.1) minusIdx BATTERY_VOLTAGE battery.id
      let c2 := c1.r plusIdx (some internal.1) BATTERY_INTERNAL_RESISTANCE
        (battery.id ++ "_Rint")
      (c2, acc.2)
    | _, _ => acc

/-- One step of the `bulbs.forEach` loop: a fixed 500 Ω resistor when the
bulb has exactly two terminals. -/
def addBulb (nodes : List Node) (nodeToNet netNames : List (String × String))
    (netToIndex : List (String × Int)) (c : Ckt) (bulb : Component) : Ckt :=
  match nodes.filter (fun n => n.componentId == bulb.id) with
  | [n1, n2] =>
    c.r (getNodeIndex n1.id nodeToNet netNames netToIndex)
      (getNodeIndex n2.id nodeToNet netNames netToIndex) BULB_RESISTANCE bulb.id
  | _ => c

/-- One step of the `pots.forEach` loop: `pot.resistance || 500` (any
falsy stored resistance, i.e. absent or zero, falls back to 500 Ω). -/
def addPot (nodes : List Node) (nodeToNet netNames : List (String × String))
    (netToIndex : List (String × Int)) (c : Ckt) (pot : Component) : Ckt :=
  match nodes.filter (fun n => n.componentId == pot.id) with
  | [n1, n2] =>
    let resistance : ℚ :=
      match pot.resistance with
      | none => 500
      | some rv => if rv = 0 then 500 else rv
    c.r (getNodeIndex n1.id nodeToNet netNames netToIndex)
      (getNodeIndex n2.id nodeToNet netNames netToIndex) resistance pot.id
  | _ => c

/-- The data available after the translation phase of `simulateCircuit`
(steps 1–3 of the source, lines 286–402). -/
structure Translation where
  nodeToNet : List (String × String)
  netNames : List (String × String)
  netToIndex : List (String × Int)
  ckt : Ckt
  shortedIdx : List Nat
deriving Repr, DecidableEq

/-- Steps 1–3 of `simulateCircuit`: build nets, name them (`none` when no
ground reference exists — either no `battery_minus` node, or its root is
the empty string, which the `if (!groundNet)` test also treats as absent),
then build the netlist, flagging self-shorted batteries. -/
def translateCircuit (input : CircuitInput) : Option Translation :=
  let nets := buildElectricalNets input.nodes input.connections
  let naming := assignNetNames nets.1 input.nodes
  match naming.groundNet with
  | none => none
  | some g =>
    if g = "" then none
    else
      let built := naming.netNames.foldl
        (fun (acc : Ckt × List (String × Int)) rootName =>
          if rootName.2 ≠ "gnd" then
            let nd := acc.1.node rootName.2
            (nd.2, alSet acc.2 rootName.2 nd.1)
          else acc)
        (Ckt.empty, [("gnd", Ckt.gndNode)])
      let shortedIds := getShortedBatteryIds input.components input.nodes nets.2
      let batteries := (input.components.filter (fun c => c.type == "battery")).enum
      let afterBatteries := batteries.foldl
        (addBattery input.nodes nets.2 naming.netNames built.2 shortedIds)
        (built.1, [])
      let bulbs := input.components.filter (fun c => c.type == "bulb")
      let afterBulbs := bulbs.foldl
        (addBulb input.nodes nets.2 naming.netNames built.2) afterBatteries.1
      let pots := input.components.filter (fun c => c.type == "potentiometer")
      let afterPots := pots.foldl
        (addPot input.nodes nets.2 naming.netNames built.2) afterBulbs
      some ⟨nets.2, naming.netNames, built.2, afterPots, afterBatteries.2⟩

/-! ### Result interpretation -/

/-- The all-default result returned for empty input. -/
def emptyResult : SimulationResult := ⟨false, 0, [], [], 0, []⟩

/-- The initial per-bulb default state (`isOn:false, current:0, voltage:0,
power:0`, no other fields). -/
def initialBulbState : BulbState :=
  { isOn := false, isBurnedOut := none, brightness := none,
    current := 0, voltage := 0, voltageNode1 := none, voltageNode2 := none,
    power := 0 }

/-- The `result.bulbStates` map after the initial loop over bulbs. -/
def initialBulbStates (components : List Component) : List (String × BulbState) :=
  (components.filter (fun c => c.type == "bulb")).foldl
    (fun acc b => alSet acc b.id initialBulbState) []

/-- The terminal voltage used for a bulb: `"gnd"` is exactly 0 V, a
missing net name or a net absent from the solver map reads as 0
(`dcResult[net] ?? 0`). -/
def bulbVoltage (netName : Option String) (dcResult : List (String × ℚ)) : ℚ :=
  if netName = some "gnd" then 0
  else
    match netName with
    | none => 0
    | some nm => (alGet dcResult nm).getD 0

/-- The bulb state computed from the two terminal voltages (lines
458–488 of the simulator module). -/
def computeBulbState (v1 v2 : ℚ) : BulbState :=
  let voltageDrop := |v1 - v2|
  let current := voltageDrop / BULB_RESISTANCE
  let power := voltageDrop * current
  let isBurnedOut : Bool := decide (BURNOUT_CURRENT < current)
  let isOn : Bool := !isBurnedOut && decide (CURRENT_THRESHOLD < current)
  let brightness : ℚ :=
    if isOn then
      max 0 (min ((current - CURRENT_THRESHOLD) /
        (NORMAL_CURRENT - CURRENT_THRESHOLD)) 2)
    else 0
  { isOn := isOn, isBurnedOut := some isBurnedOut, brightness := some brightness,
    current := current, voltage := voltageDrop,
    voltageNode1 := some v1, voltageNode2 := some v2, power := power }

/-- Accumulator of the bulb-state loop (the three `result` fields it
mutates). -/
structure BulbAcc where
  bulbStates : List (String × BulbState)
  bulbsOnCount : Nat
  hasClosedLoop : Bool
deriving Repr

/-- One step of the bulb-state loop over `bulbs`. -/
def bulbStep (nodes : List Node) (nodeToNet netNames : List (String × String))
    (dcResult : List (String × ℚ)) (acc : BulbAcc) (bulb : Component) : BulbAcc :=
  match nodes.filter (fun n => n.componentId == bulb.id) with
  | [m1, m2] =>
    let net1 := getNetName m1.id nodeToNet netNames
    let net2 := getNetName m2.id nodeToNet netNames
    let st := computeBulbState (bulbVoltage net1 dcResult) (bulbVoltage net2 dcResult)
    { bulbStates := alSet acc.bulbStates bulb.id st,
      bulbsOnCount := acc.bulbsOnCount + (if st.isOn then 1 else 0),
      hasClosedLoop := acc.hasClosedLoop || st.isOn }
  | _ => acc

/-- The `batteries.forEach` loop extracting `totalCurrent`: each battery
with a defined `I(id)` entry overwrites the accumulator with its absolute
branch current. -/
def computeTotalCurrent (batteries : List Component)
    (dcResult : List (String × ℚ)) : ℚ :=
  batteries.foldl
    (fun acc b =>
      match alGet dcResult ("I(" ++ b.id ++ ")") with
      | some v0 => |v0|
      | none => acc)
    0

/-- `simulateCircuit({nodes, connections, components})`, parameterised by
the external solver `dc`.  The structure mirrors the source: empty-input
guard, translation (aborting without a ground reference), solver call,
result extraction, the closed-loop-without-lit-bulb check, and the no-load
short-circuit heuristic.  The `throws` branch is the top-level `catch`. -/
def simulateCircuit (input : CircuitInput) (dc : Ckt → SolverOutcome) :
    SimulationResult :=
  if input.nodes.isEmpty || input.components.isEmpty then emptyResult
  else
    let result0 : SimulationResult :=
      { emptyResult with bulbStates := initialBulbStates input.components }
    match translateCircuit input with
    | none => result0
    | some tr =>
      match dc tr.ckt with
      | SolverOutcome.throws =>
        { result0 with batteryIndices := getAllBatteryIndices input.components }
      | SolverOutcome.fails =>
        { result0 with batteryIndices := getAllBatteryIndices input.components }
      | SolverOutcome.success dcResult =>
        let nodeVoltages := dcResult.foldl
          (fun acc kv => if kv.1.startsWith "I(" then acc else alSet acc kv.1 kv.2)
          []
        let batteries := input.components.filter (fun c => c.type == "battery")
        let totalCurrent := computeTotalCurrent batteries dcResult
        let bulbs := input.components.filter (fun c => c.type == "bulb")
        let bacc := bulbs.foldl
          (bulbStep input.nodes tr.nodeToNet tr.netNames dcResult)
          ⟨result0.bulbStates, 0, false⟩
        let hasClosedLoop := bacc.hasClosedLoop ||
          decide (CURRENT_THRESHOLD < totalCurrent)
        let batteryIndices :=
          if SHORT_CIRCUIT_CURRENT < totalCurrent ∧ bacc.bulbsOnCount = 0 ∧
              0 < batteries.length then
            getAllBatteryIndices input.components
          else tr.shortedIdx
        { hasClosedLoop := hasClosedLoop, bulbsOnCount := bacc.bulbsOnCount,
          bulbStates := bacc.bulbStates, nodeVoltages := nodeVoltages,
          totalCurrent := totalCurrent, batteryIndices := batteryIndices }

/-! ### Decimal digits (for reasoning about `Nat.repr`) -/

/-- The numeric value of a decimal digit character. -/
def charVal (c : Char) : Nat := c.toNat - 48

/-- The number denoted by a list of decimal digit characters. -/
def digitsVal (l : List Char) : Nat := l.foldl (fun a c => 10 * a + charVal c) 0

/-- The decimal digit characters of a number, most significant first. -/
def digitsOf (n : Nat) : List Char :=
  if n < 10 then [Nat.digitChar n]
  else digitsOf (n / 10) ++ [Nat.digitChar (n % 10)]
termination_by n
decreasing_by exact Nat.div_lt_self (by omega) (by omega)

/-- The roots list produced by `getRoots()` described as a pure fold over
the key snapshot (first-occurrence order of each key's root). -/
def rootsList (p : List (String × String)) : List String :=
  (keysOf p).foldl
    (fun acc k => if acc.contains (rootOf p k) then acc else acc ++ [rootOf p k]) []

/-! ### Concrete example circuits used in counterexamples and witnesses -/

/-- Two batteries, all four terminals mutually unconnected. -/
def twoBatteryInput : CircuitInput :=
  { nodes := [⟨"n1", "b1", some "battery_plus"⟩, ⟨"n2", "b1", some "battery_minus"⟩,
              ⟨"n3", "b2", some "battery_plus"⟩, ⟨"n4", "b2", some "battery_minus"⟩],
    connections := [],
    components := [⟨"b1", "battery", none⟩, ⟨"b2", "battery", none⟩] }

/-- A solver answering with defined branch currents 1 A and 2 A for the
two batteries of `twoBatteryInput`. -/
def twoBatterySolver : Ckt → SolverOutcome :=
  fun _ => SolverOutcome.success [("I(b1)", 1), ("I(b2)", 2)]

/-- A single bulb with one terminal and no `battery_minus` node anywhere. -/
def bulbOnlyInput : CircuitInput :=
  { nodes := [⟨"n3", "L1", none⟩],
    connections := [],
    components := [⟨"L1", "bulb", none⟩] }

/-- One battery and one bulb wired into a simple loop. -/
def loopInput : CircuitInput :=
  { nodes := [⟨"n1", "b1", some "battery_plus"⟩, ⟨"n2", "b1", some "battery_minus"⟩,
              ⟨"n3", "L1", none⟩, ⟨"n4", "L1", none⟩],
    connections := [⟨"n1", "n3"⟩, ⟨"n4", "n2"⟩],
    components := [⟨"b1", "battery", none⟩, ⟨"L1", "bulb", none⟩] }

/-- A single battery with unconnected terminals. -/
def oneBatteryInput : CircuitInput :=
  { nodes := [⟨"n1", "b1", some "battery_plus"⟩, ⟨"n2", "b1", some "battery_minus"⟩],
    connections := [],
    components := [⟨"b1", "battery", none⟩] }

/-- A battery whose terminals are wired directly together. -/
def shortedBatteryInput : CircuitInput :=
  { nodes := [⟨"n1", "b1", some "battery_plus"⟩, ⟨"n2", "b1", some "battery_minus"⟩],
    connections := [⟨"n1", "n2"⟩],
    components := [⟨"b1", "battery", none⟩] }

/-- A battery plus a two-terminal potentiometer whose stored resistance is
the falsy value 0. -/
def potZeroInput : CircuitInput :=
  { nodes := [⟨"n1", "b1", some "battery_plus"⟩, ⟨"n2", "b1", some "battery_minus"⟩,
              ⟨"n5", "p1", some "potentiometer"⟩, ⟨"n6", "p1", some "potentiometer"⟩],
    connections := [],
    components := [⟨"b1", "battery", none⟩, ⟨"p1", "potentiometer", some 0⟩] }

/-- The translation of `twoBatteryInput` (used to instantiate witnesses). -/
def twoBatteryTr : Translation :=
  (translateCircuit twoBatteryInput).getD ⟨[], [], [], Ckt.empty, []⟩

/-- The translation of `oneBatteryInput`. -/
def oneBatteryTr : Translation :=
  (translateCircuit oneBatteryInput).getD ⟨[], [], [], Ckt.empty, []⟩

/-- A solver answering a defined 1 A branch current for `oneBatteryInput`. -/
def oneBatterySolver : Ckt → SolverOutcome :=
  fun _ => SolverOutcome.success [("I(b1)", 1)]

/-- The translation of `loopInput`. -/
def loopTr : Translation :=
  (translateCircuit loopInput).getD ⟨[], [], [], Ckt.empty, []⟩

/-- A solver for `loopInput` giving the bulb net 5 V and the battery a
10 mA branch current. -/
def loopSolver : Ckt → SolverOutcome :=
  fun _ => SolverOutcome.success [("net1", 5), ("I(b1)", 1/100)]

/-- A solver for `loopInput` whose voltage map omits the bulb's non-ground
net. -/
def loopMissingSolver : Ckt → SolverOutcome :=
  fun _ => SolverOutcome.success [("I(b1)", 0)]

/-- The translation of `potZeroInput`. -/
def potZeroTr : Translation :=
  (translateCircuit potZeroInput).getD ⟨[], [], [], Ckt.empty, []⟩

/-- The translation of `shortedBatteryInput`. -/
def shortedBatteryTr : Translation :=
  (translateCircuit shortedBatteryInput).getD ⟨[], [], [], Ckt.empty, []⟩

/-! ## Lemmas about the `Map` embedding -/

theorem alGet_nil {α : Type} (k : String) : alGet ([] : List (String × α)) k = none := rfl

theorem alGet_cons {α : Type} (k2 : String) (v : α) (rest : List (String × α)) (k : String) :
    alGet ((k2, v) :: rest) k = if k2 = k then some v else alGet rest k := rfl

theorem alGet_append_of_some {α : Type} {l1 : List (String × α)} (l2 : List (String × α))
    {k : String} {v : α} (h : alGet l1 k = some v) : alGet (l1 ++ l2) k = some v := by
  induction l1 with
  | nil => simp [alGet] at h
  | cons hd tl ih =>
    obtain ⟨k2, w⟩ := hd
    by_cases h2 : k2 = k
    · rw [alGet_cons, if_pos h2] at h
      rw [List.cons_append, alGet_cons, if_pos h2]
      exact h
    · rw [alGet_cons, if_neg h2] at h
      rw [List.cons_append, alGet_cons, if_neg h2]
      exact ih h

theorem alGet_append_of_none {α : Type} {l1 : List (String × α)} (l2 : List (String × α))
    {k : String} (h : alGet l1 k = none) : alGet (l1 ++ l2) k = alGet l2 k := by
  induction l1 with
  | nil => rfl
  | cons hd tl ih =>
    obtain ⟨k2, w⟩ := hd
    by_cases h2 : k2 = k
    · rw [alGet_cons, if_pos h2] at h; exact absurd h (by simp)
    · rw [alGet_cons, if_neg h2] at h
      rw [List.cons_append, alGet_cons, if_neg h2]
      exact ih h

theorem alGet_mapSet_self {α : Type} (l : List (String × α)) (k : String) (v : α) :
    alGet (l.map (fun p => if p.1 = k then (k, v) else p)) k =
      if (alGet l k).isSome then some v else none := by
  induction l with
  | nil => simp [alGet]
  | cons hd tl ih =>
    obtain ⟨k2, w⟩ := hd
    by_cases h : k2 = k
    · have hhd : (if ((k2, w) : String × α).1 = k then (k, v) else (k2, w)) = (k, v) :=
        if_pos h
      rw [List.map_cons, hhd, alGet_cons, if_pos rfl, alGet_cons, if_pos h]
      simp
    · have hhd : (if ((k2, w) : String × α).1 = k then (k, v) else (k2, w)) = (k2, w) :=
        if_neg h
      rw [List.map_cons, hhd, alGet_cons, if_neg h, alGet_cons, if_neg h, ih]

theorem alGet_mapSet_ne {α : Type} (l : List (String × α)) (k k' : String) (v : α)
    (h : k' ≠ k) :
    alGet (l.map (fun p => if p.1 = k then (k, v) else p)) k' = alGet l k' := by
  induction l with
  | nil => simp [alGet]
  | cons hd tl ih =>
    obtain ⟨k2, w⟩ := hd
    by_cases h2 : k2 = k
    · have hhd : (if ((k2, w) : String × α).1 = k then (k, v) else (k2, w)) = (k, v) :=
        if_pos h2
      have hkk : ¬(k = k') := fun he => h he.symm
      have hkk2 : ¬(k2 = k') := fun he => h (he.symm.trans h2)
      rw [List.map_cons, hhd, alGet_cons, if_neg hkk, alGet_cons, if_neg hkk2, ih]
    · have hhd : (if ((k2, w) : String × α).1 = k then (k, v) else (k2, w)) = (k2, w) :=
        if_neg h2
      rw [List.map_cons, hhd, alGet_cons, alGet_cons, ih]

theorem alGet_alSet_self {α : Type} (l : List (String × α)) (k : String) (v : α) :
    alGet (alSet l k v) k = some v := by
  unfold alSet
  by_cases h : (alGet l k).isSome
  · simp [h, alGet_mapSet_self]
  · rw [if_neg h]
    have hn : alGet l k = none := by
      cases hg : alGet l k with
      | some w => rw [hg] at h; simp at h
      | none => rfl
    rw [alGet_append_of_none _ hn, alGet_cons, if_pos rfl]

theorem alGet_alSet_ne {α : Type} (l : List (String × α)) (k k' : String) (v : α)
    (h : k' ≠ k) : alGet (alSet l k v) k' = alGet l k' := by
  unfold alSet
  by_cases hs : (alGet l k).isSome
  · simp [hs, alGet_mapSet_ne _ _ _ _ h]
  · rw [if_neg hs]
    have hn : ¬(k = k') := fun he => h he.symm
    cases hg : alGet l k' with
    | some w => exact alGet_append_of_some _ hg
    | none => rw [alGet_append_of_none _ hg, alGet_cons, if_neg hn, alGet_nil]

theorem keysOf_mapSet (l : List (String × String)) (k : String) (v : String) :
    keysOf (l.map (fun p => if p.1 = k then (k, v) else p)) = keysOf l := by
  induction l with
  | nil => rfl
  | cons hd tl ih =>
    obtain ⟨k2, w⟩ := hd
    by_cases h : k2 = k
    · subst h; simpa [keysOf] using ih
    · simpa [keysOf, h] using ih

theorem keysOf_alSet_of_isSome (l : List (String × String)) (k : String) (v : String)
    (h : (alGet l k).isSome) : keysOf (alSet l k v) = keysOf l := by
  unfold alSet
  simp [h, keysOf_mapSet]

theorem length_alSet_of_isSome (l : List (String × String)) (k : String) (v : String)
    (h : (alGet l k).isSome) : (alSet l k v).length = l.length := by
  unfold alSet
  simp [h]

theorem keysOf_alSet_of_none (l : List (String × String)) (k : String) (v : String)
    (h : alGet l k = none) : keysOf (alSet l k v) = keysOf l ++ [k] := by
  unfold alSet
  simp [h, keysOf]

theorem alGet_mem {α : Type} (l : List (String × α)) (k : String) (v : α)
    (h : alGet l k = some v) : (k, v) ∈ l := by
  induction l with
  | nil => simp [alGet] at h
  | cons hd tl ih =>
    obtain ⟨k2, w⟩ := hd
    by_cases h2 : k2 = k
    · subst h2
      rw [alGet_cons, if_pos rfl] at h
      have hv : w = v := Option.some.inj h
      subst hv
      exact List.mem_cons_self _ _
    · rw [alGet_cons, if_neg h2] at h
      exact List.mem_cons_of_mem _ (ih h)

theorem isSome_alGet_of_mem_keys {α : Type} (l : List (String × α)) (k : String)
    (h : k ∈ l.map Prod.fst) : (alGet l k).isSome := by
  induction l with
  | nil => simp at h
  | cons hd tl ih =>
    obtain ⟨k2, w⟩ := hd
    by_cases h2 : k2 = k
    · simp [alGet, h2]
    · simp only [List.map_cons, List.mem_cons] at h
      rcases h with h | h
      · exact absurd h.symm h2
      · simpa [alGet, h2] using ih h

theorem mem_keys_of_alGet_isSome {α : Type} (l : List (String × α)) (k : String)
    (h : (alGet l k).isSome) : k ∈ l.map Prod.fst := by
  cases hg : alGet l k with
  | none => simp [hg] at h
  | some v => exact List.mem_map.mpr ⟨(k, v), alGet_mem _ _ _ hg, rfl⟩

/-! ## Parent-pointer semantics -/

theorem parentOf_alSet_self (p : List (String × String)) (k v : String) :
    parentOf (alSet p k v) k = v := by
  simp [parentOf, alGet_alSet_self]

theorem parentOf_alSet_ne (p : List (String × String)) (k k' v : String)
    (h : k' ≠ k) : parentOf (alSet p k v) k' = parentOf p k' := by
  simp [parentOf, alGet_alSet_ne _ _ _ _ h]

theorem iterP_succ (p : List (String × String)) (n : Nat) (x : String) :
    iterP p (n + 1) x = iterP p n (parentOf p x) := rfl

theorem iterP_succ_right (p : List (String × String)) (n : Nat) (x : String) :
    iterP p (n + 1) x = parentOf p (iterP p n x) := by
  induction n generalizing x with
  | zero => rfl
  | succ n ih => rw [iterP_succ, ih, ← iterP_succ]

theorem iterP_add (p : List (String × String)) (m n : Nat) (x : String) :
    iterP p (m + n) x = iterP p n (iterP p m x) := by
  induction m generalizing x with
  | zero => simp [iterP, Nat.zero_add]
  | succ m ih =>
    have : m + 1 + n = (m + n) + 1 := by omega
    rw [this, iterP_succ, iterP_succ, ih]

theorem iterP_of_root (p : List (String × String)) (r : String)
    (hr : parentOf p r = r) (n : Nat) : iterP p n r = r := by
  induction n with
  | zero => rfl
  | succ n ih => rw [iterP_succ, hr, ih]

theorem reaches_root_refl (p : List (String × String)) (r : String)
    (hr : parentOf p r = r) : Reaches p r r := ⟨⟨0, rfl⟩, hr⟩

theorem reaches_step (p : List (String × String)) (x r : String)
    (h : Reaches p (parentOf p x) r) : Reaches p x r := by
  obtain ⟨⟨n, hn⟩, hr⟩ := h
  exact ⟨⟨n + 1, by rw [iterP_succ]; exact hn⟩, hr⟩

theorem reaches_destruct (p : List (String × String)) (x r : String)
    (h : Reaches p x r) (hx : parentOf p x ≠ x) : Reaches p (parentOf p x) r := by
  obtain ⟨⟨n, hn⟩, hr⟩ := h
  cases n with
  | zero =>
    have hxr : x = r := hn
    rw [hxr] at hx
    exact absurd hr hx
  | succ n => exact ⟨⟨n, by rw [iterP_succ] at hn; exact hn⟩, hr⟩

theorem reaches_unique (p : List (String × String)) (x r r2 : String)
    (h1 : Reaches p x r) (h2 : Reaches p x r2) : r = r2 := by
  obtain ⟨⟨n, hn⟩, hr⟩ := h1
  obtain ⟨⟨m, hm⟩, hr2⟩ := h2
  rcases Nat.le_total n m with h | h
  · have : iterP p m x = iterP p (m - n) (iterP p n x) := by
      rw [← iterP_add]; congr 1; omega
    rw [this, hn, iterP_of_root p r hr] at hm
    exact hm
  · have : iterP p n x = iterP p (n - m) (iterP p m x) := by
      rw [← iterP_add]; congr 1; omega
    rw [this, hm, iterP_of_root p r2 hr2] at hn
    exact hn.symm

theorem rootAux_reaches (p : List (String × String)) (f : Nat) (x : String)
    (h : ∃ n, n < f ∧ parentOf p (iterP p n x) = iterP p n x) :
    Reaches p x (rootAux p f x) := by
  induction f generalizing x with
  | zero => obtain ⟨n, hn, _⟩ := h; omega
  | succ f ih =>
    by_cases hx : parentOf p x = x
    · simp only [rootAux, if_pos hx]
      exact reaches_root_refl p x hx
    · simp only [rootAux, if_neg hx]
      obtain ⟨n, hn, hroot⟩ := h
      cases n with
      | zero => exact absurd hroot hx
      | succ n =>
        rw [iterP_succ] at hroot
        exact reaches_step p x _ (ih (parentOf p x) ⟨n, by omega, hroot⟩)

theorem mem_keys_of_not_root (p : List (String × String)) (x : String)
    (hx : parentOf p x ≠ x) : x ∈ keysOf p := by
  by_cases h : (alGet p x).isSome
  · exact mem_keys_of_alGet_isSome p x h
  · exfalso
    apply hx
    unfold parentOf
    cases hg : alGet p x with
    | some v => rw [hg] at h; simp at h
    | none => rfl

theorem parentOf_mem_keys (p : List (String × String))
    (hcl : ∀ x q, (x, q) ∈ p → q ∈ keysOf p) (y : String)
    (hy : y ∈ keysOf p) : parentOf p y ∈ keysOf p := by
  have hs : (alGet p y).isSome := isSome_alGet_of_mem_keys p y hy
  cases hg : alGet p y with
  | none => rw [hg] at hs; simp at hs
  | some q =>
    have : parentOf p y = q := by unfold parentOf; rw [hg]; rfl
    rw [this]
    exact hcl y q (alGet_mem p y q hg)

theorem iterP_mem_keys (p : List (String × String))
    (hcl : ∀ x q, (x, q) ∈ p → q ∈ keysOf p) (x : String)
    (hx : x ∈ keysOf p) (n : Nat) : iterP p n x ∈ keysOf p := by
  induction n with
  | zero => exact hx
  | succ n ih => rw [iterP_succ_right]; exact parentOf_mem_keys p hcl _ ih

theorem exists_root_lt (p : List (String × String)) (wf : WFP p) (x : String) :
    ∃ n, n < p.length + 1 ∧ parentOf p (iterP p n x) = iterP p n x := by
  classical
  have hex : ∃ n, parentOf p (iterP p n x) = iterP p n x := wf.reach x
  set N := Nat.find hex with hNdef
  have hNroot : parentOf p (iterP p N x) = iterP p N x := Nat.find_spec hex
  by_cases hN : N < p.length + 1
  · exact ⟨N, hN, hNroot⟩
  · exfalso
    push_neg at hN
    have hmem : ∀ i, i < N → iterP p i x ∈ keysOf p := by
      intro i hi
      have hi2 : parentOf p (iterP p i x) ≠ iterP p i x := Nat.find_min hex hi
      exact mem_keys_of_not_root p _ hi2
    have hinj : ∀ i j, i < j → j < N → iterP p i x ≠ iterP p j x := by
      intro i j hij hjN heq
      have h1 : iterP p (i + (N - j)) x = iterP p (N - j) (iterP p i x) :=
        iterP_add p i (N - j) x
      have h2 : iterP p N x = iterP p (N - j) (iterP p j x) := by
        rw [← iterP_add]; congr 1; omega
      have hroot2 : parentOf p (iterP p (i + (N - j)) x) = iterP p (i + (N - j)) x := by
        rw [h1, heq, ← h2]; exact hNroot
      exact Nat.find_min hex (by omega : i + (N - j) < N) hroot2
    have hinj2 : Function.Injective (fun i : Fin (p.length + 1) => iterP p (i : Nat) x) := by
      intro i j heq
      by_contra hne
      have hne2 : (i : Nat) ≠ (j : Nat) := fun hh => hne (Fin.ext hh)
      simp only at heq
      rcases Nat.lt_or_ge (i : Nat) (j : Nat) with hlt | hge
      · exact hinj i j hlt (by omega) heq
      · exact hinj j i (by omega) (by omega) heq.symm
    have h1 : (Finset.univ.image
        (fun i : Fin (p.length + 1) => iterP p (i : Nat) x)).card = p.length + 1 := by
      rw [Finset.card_image_of_injective _ hinj2, Finset.card_univ, Fintype.card_fin]
    have h2 : (Finset.univ.image
        (fun i : Fin (p.length + 1) => iterP p (i : Nat) x)) ⊆ (keysOf p).toFinset := by
      intro y hy
      simp only [Finset.mem_image] at hy
      obtain ⟨i, _, rfl⟩ := hy
      exact List.mem_toFinset.mpr (hmem i (by omega))
    have h3 := Finset.card_le_card h2
    have h4 : (keysOf p).toFinset.card ≤ (keysOf p).length := (keysOf p).toFinset_card_le
    have h5 : (keysOf p).length = p.length := by simp [keysOf]
    omega

theorem rootOf_reaches (p : List (String × String)) (wf : WFP p) (x : String) :
    Reaches p x (rootOf p x) :=
  rootAux_reaches p _ x (exists_root_lt p wf x)

theorem rootOf_eq_of_reaches (p : List (String × String)) (wf : WFP p) (x r : String)
    (h : Reaches p x r) : rootOf p x = r :=
  reaches_unique p x _ r (rootOf_reaches p wf x) h

theorem parentOf_rootOf (p : List (String × String)) (wf : WFP p) (x : String) :
    parentOf p (rootOf p x) = rootOf p x :=
  (rootOf_reaches p wf x).2

theorem rootOf_of_root (p : List (String × String)) (wf : WFP p) (x : String)
    (hx : parentOf p x = x) : rootOf p x = x :=
  rootOf_eq_of_reaches p wf x x (reaches_root_refl p x hx)

theorem rootOf_parentOf (p : List (String × String)) (wf : WFP p) (x : String) :
    rootOf p (parentOf p x) = rootOf p x := by
  by_cases hx : parentOf p x = x
  · rw [hx]
  · exact rootOf_eq_of_reaches p wf _ _
      (reaches_destruct p x _ (rootOf_reaches p wf x) hx)

theorem rootOf_mem_keys (p : List (String × String)) (wf : WFP p) (x : String)
    (hx : x ∈ keysOf p) : rootOf p x ∈ keysOf p := by
  obtain ⟨⟨n, hn⟩, _⟩ := rootOf_reaches p wf x
  rw [← hn]
  exact iterP_mem_keys p wf.closed x hx n

theorem iterP_congr (p q : List (String × String))
    (h : ∀ y, parentOf p y = parentOf q y) (n : Nat) (x : String) :
    iterP p n x = iterP q n x := by
  induction n generalizing x with
  | zero => rfl
  | succ n ih => rw [iterP_succ, iterP_succ, h, ih]

theorem reaches_congr (p q : List (String × String))
    (h : ∀ y, parentOf p y = parentOf q y) (x r : String) :
    Reaches p x r ↔ Reaches q x r := by
  constructor
  · rintro ⟨⟨n, hn⟩, hr⟩
    exact ⟨⟨n, by rw [← iterP_congr p q h]; exact hn⟩, by rw [← h]; exact hr⟩
  · rintro ⟨⟨n, hn⟩, hr⟩
    exact ⟨⟨n, by rw [iterP_congr p q h]; exact hn⟩, by rw [h]; exact hr⟩

/-! ## `makeSet` lemmas -/

theorem makeSet_of_isSome (s : UFState) (x : String)
    (h : (alGet s.parent x).isSome) : UnionFind.makeSet s x = s := by
  unfold UnionFind.makeSet
  rw [if_pos h]

theorem parentOf_makeSet (s : UFState) (x y : String) :
    parentOf (UnionFind.makeSet s x).parent y = parentOf s.parent y := by
  unfold UnionFind.makeSet
  by_cases h : (alGet s.parent x).isSome
  · rw [if_pos h]
  · rw [if_neg h]
    have hn : alGet s.parent x = none := by
      cases hg : alGet s.parent x with
      | some v => rw [hg] at h; simp at h
      | none => rfl
    by_cases hxy : x = y
    · subst hxy
      unfold parentOf
      rw [alGet_append_of_none _ hn, hn, alGet_cons, if_pos rfl]
      rfl
    · unfold parentOf
      simp only
      cases hg : alGet s.parent y with
      | some v => rw [alGet_append_of_some _ hg]
      | none =>
        rw [alGet_append_of_none _ hg, alGet_cons, if_neg hxy, alGet_nil]

theorem isSome_makeSet_self (s : UFState) (x : String) :
    (alGet (UnionFind.makeSet s x).parent x).isSome := by
  unfold UnionFind.makeSet
  by_cases h : (alGet s.parent x).isSome
  · rw [if_pos h]; exact h
  · rw [if_neg h]
    have hn : alGet s.parent x = none := by
      cases hg : alGet s.parent x with
      | some v => rw [hg] at h; simp at h
      | none => rfl
    simp only
    rw [alGet_append_of_none _ hn, alGet_cons, if_pos rfl]
    rfl

theorem mem_keys_makeSet_self (s : UFState) (x : String) :
    x ∈ keysOf (UnionFind.makeSet s x).parent :=
  mem_keys_of_alGet_isSome _ x (isSome_makeSet_self s x)

theorem keys_makeSet_superset (s : UFState) (x y : String)
    (hy : y ∈ keysOf s.parent) : y ∈ keysOf (UnionFind.makeSet s x).parent := by
  unfold UnionFind.makeSet
  by_cases h : (alGet s.parent x).isSome
  · rw [if_pos h]; exact hy
  · rw [if_neg h]
    simp only [keysOf, List.map_append, List.mem_append]
    exact Or.inl hy

theorem wfp_makeSet (s : UFState) (x : String) (wf : WFP s.parent) :
    WFP (UnionFind.makeSet s x).parent := by
  unfold UnionFind.makeSet
  by_cases h : (alGet s.parent x).isSome
  · rw [if_pos h]; exact wf
  · rw [if_neg h]
    constructor
    · intro y q hmem
      simp only [List.mem_append, List.mem_cons, List.not_mem_nil, or_false] at hmem
      rcases hmem with hmem | hmem
      · have := wf.closed y q hmem
        simp only [keysOf, List.map_append, List.mem_append]
        exact Or.inl this
      · obtain ⟨hy, hq⟩ := Prod.mk.inj hmem
        subst hy; subst hq
        simp [keysOf]
    · intro y
      obtain ⟨n, hn⟩ := wf.reach y
      have hcong : ∀ z, parentOf (s.parent ++ [(x, x)]) z = parentOf s.parent z := by
        intro z
        have := parentOf_makeSet s x z
        unfold UnionFind.makeSet at this
        rw [if_neg h] at this
        exact this
      refine ⟨n, ?_⟩
      rw [iterP_congr _ s.parent hcong, hcong]
      exact hn

theorem rootOf_makeSet (s : UFState) (x : String) (wf : WFP s.parent) (y : String) :
    rootOf (UnionFind.makeSet s x).parent y = rootOf s.parent y :=
  rootOf_eq_of_reaches _ (wfp_makeSet s x wf) y _
    ((reaches_congr _ s.parent (fun z => parentOf_makeSet s x z) y _).mpr
      (rootOf_reaches s.parent wf y))

/-! ## Effect of `parent.set` (path compression and root attachment) -/

theorem mem_alSet {α : Type} (l : List (String × α)) (k : String) (v : α)
    (x : String) (q : α) (h : (x, q) ∈ alSet l k v) :
    (x = k ∧ q = v) ∨ (x, q) ∈ l := by
  unfold alSet at h
  by_cases hs : (alGet l k).isSome
  · rw [if_pos hs] at h
    obtain ⟨p0, hp0, heq⟩ := List.mem_map.mp h
    by_cases hk : p0.1 = k
    · rw [if_pos hk] at heq
      obtain ⟨h1, h2⟩ := Prod.mk.inj heq.symm
      exact Or.inl ⟨h1, h2⟩
    · rw [if_neg hk] at heq
      subst heq
      exact Or.inr hp0
  · rw [if_neg hs] at h
    simp only [List.mem_append, List.mem_cons, List.not_mem_nil, or_false] at h
    rcases h with h | h
    · exact Or.inr h
    · obtain ⟨h1, h2⟩ := Prod.mk.inj h
      exact Or.inl ⟨h1, h2⟩

theorem mem_keys_alSet_self {α : Type} (l : List (String × α)) (k : String) (v : α) :
    k ∈ (alSet l k v).map Prod.fst :=
  mem_keys_of_alGet_isSome _ k (by rw [alGet_alSet_self]; rfl)

theorem keys_alSet_superset {α : Type} (l : List (String × α)) (k : String) (v : α)
    (y : String) (hy : y ∈ l.map Prod.fst) : y ∈ (alSet l k v).map Prod.fst := by
  by_cases hyk : y = k
  · rw [hyk]; exact mem_keys_alSet_self l k v
  · have : (alGet (alSet l k v) y).isSome := by
      rw [alGet_alSet_ne _ _ _ _ hyk]
      exact isSome_alGet_of_mem_keys l y hy
    exact mem_keys_of_alGet_isSome _ y this

theorem reaches_alSet_compress (p : List (String × String)) (wf : WFP p)
    (a r0 : String) (ha : Reaches p a r0) :
    ∀ n y, parentOf p (iterP p n y) = iterP p n y →
      Reaches (alSet p a r0) y (rootOf p y) := by
  have hbase : ∀ y, parentOf p y = y → Reaches (alSet p a r0) y (rootOf p y) := by
    intro y hy
    rw [rootOf_of_root p wf y hy]
    by_cases hya : y = a
    · subst hya
      have hr0 : r0 = y := reaches_unique p y r0 y ha (reaches_root_refl p y hy)
      subst hr0
      exact reaches_root_refl _ r0 (by rw [parentOf_alSet_self])
    · exact reaches_root_refl _ y (by rw [parentOf_alSet_ne p a y r0 hya]; exact hy)
  have hstep_a : parentOf p a ≠ a → Reaches (alSet p a r0) a (rootOf p a) := by
    intro hna
    have hroot : rootOf p a = r0 := rootOf_eq_of_reaches p wf a r0 ha
    rw [hroot]
    have hr0a : r0 ≠ a := by
      intro he
      subst he
      exact hna ha.2
    have hr0' : parentOf (alSet p a r0) r0 = r0 := by
      rw [parentOf_alSet_ne p a r0 r0 hr0a]; exact ha.2
    apply reaches_step _ a r0
    rw [parentOf_alSet_self]
    exact reaches_root_refl _ r0 hr0'
  intro n
  induction n with
  | zero => intro y hy; exact hbase y hy
  | succ n ih =>
    intro y hy
    by_cases hroot : parentOf p y = y
    · exact hbase y hroot
    · by_cases hya : y = a
      · subst hya; exact hstep_a hroot
      · have hy2 : parentOf p (iterP p n (parentOf p y)) = iterP p n (parentOf p y) := by
          rw [← iterP_succ]; exact hy
        have hrec := ih (parentOf p y) hy2
        rw [rootOf_parentOf p wf y] at hrec
        apply reaches_step _ y _
        rw [parentOf_alSet_ne p a y r0 hya]
        exact hrec

theorem wfp_alSet_compress (p : List (String × String)) (wf : WFP p)
    (a r0 : String) (ha : Reaches p a r0) : WFP (alSet p a r0) := by
  have hr0mem : r0 = a ∨ r0 ∈ keysOf p := by
    obtain ⟨⟨n, hn⟩, hr⟩ := ha
    cases n with
    | zero => exact Or.inl hn.symm
    | succ n =>
      by_cases hak : a ∈ keysOf p
      · exact Or.inr (by rw [← hn]; exact iterP_mem_keys p wf.closed a hak (n + 1))
      · have haroot : parentOf p a = a := by
          by_contra hcon
          exact hak (mem_keys_of_not_root p a hcon)
        rw [iterP_of_root p a haroot] at hn
        exact Or.inl hn.symm
  constructor
  · intro x q hmem
    rcases mem_alSet p a r0 x q hmem with ⟨hx, hq⟩ | hmem2
    · rw [hq]
      rcases hr0mem with h | h
      · rw [h]
        exact mem_keys_alSet_self p a a
      · exact keys_alSet_superset p a r0 _ h
    · have := wf.closed x q hmem2
      exact keys_alSet_superset p a r0 _ this
  · intro y
    obtain ⟨n, hn⟩ := wf.reach y
    obtain ⟨⟨m, hm⟩, hr⟩ := reaches_alSet_compress p wf a r0 ha n y hn
    exact ⟨m, by rw [hm]; exact hr⟩

theorem rootOf_alSet_compress (p : List (String × String)) (wf : WFP p)
    (a r0 : String) (ha : Reaches p a r0) (y : String) :
    rootOf (alSet p a r0) y = rootOf p y := by
  obtain ⟨n, hn⟩ := wf.reach y
  exact rootOf_eq_of_reaches _ (wfp_alSet_compress p wf a r0 ha) y _
    (reaches_alSet_compress p wf a r0 ha n y hn)

theorem reaches_alSet_merge (p : List (String × String)) (wf : WFP p)
    (a r0 : String) (hra : parentOf p a = a) (hrr : parentOf p r0 = r0)
    (hne : a ≠ r0) :
    ∀ n y, parentOf p (iterP p n y) = iterP p n y →
      Reaches (alSet p a r0) y (if rootOf p y = a then r0 else rootOf p y) := by
  have hr0' : parentOf (alSet p a r0) r0 = r0 := by
    rw [parentOf_alSet_ne p a r0 r0 (fun he => hne he.symm)]; exact hrr
  have hbase : ∀ y, parentOf p y = y →
      Reaches (alSet p a r0) y (if rootOf p y = a then r0 else rootOf p y) := by
    intro y hy
    rw [rootOf_of_root p wf y hy]
    by_cases hya : y = a
    · subst hya
      rw [if_pos rfl]
      apply reaches_step _ y r0
      rw [parentOf_alSet_self]
      exact reaches_root_refl _ r0 hr0'
    · rw [if_neg hya]
      exact reaches_root_refl _ y (by rw [parentOf_alSet_ne p a y r0 hya]; exact hy)
  intro n
  induction n with
  | zero => intro y hy; exact hbase y hy
  | succ n ih =>
    intro y hy
    by_cases hroot : parentOf p y = y
    · exact hbase y hroot
    · have hya : y ≠ a := by
        intro he; subst he; exact hroot hra
      have hy2 : parentOf p (iterP p n (parentOf p y)) = iterP p n (parentOf p y) := by
        rw [← iterP_succ]; exact hy
      have hrec := ih (parentOf p y) hy2
      rw [rootOf_parentOf p wf y] at hrec
      apply reaches_step _ y _
      rw [parentOf_alSet_ne p a y r0 hya]
      exact hrec

theorem wfp_alSet_merge (p : List (String × String)) (wf : WFP p)
    (a r0 : String) (hra : parentOf p a = a) (hrr : parentOf p r0 = r0)
    (hne : a ≠ r0) (hrk : r0 = a ∨ r0 ∈ keysOf p) : WFP (alSet p a r0) := by
  constructor
  · intro x q hmem
    rcases mem_alSet p a r0 x q hmem with ⟨hx, hq⟩ | hmem2
    · rw [hq]
      rcases hrk with h | h
      · rw [h]
        exact mem_keys_alSet_self p a a
      · exact keys_alSet_superset p a r0 _ h
    · exact keys_alSet_superset p a r0 _ (wf.closed x q hmem2)
  · intro y
    obtain ⟨n, hn⟩ := wf.reach y
    obtain ⟨⟨m, hm⟩, hr⟩ := reaches_alSet_merge p wf a r0 hra hrr hne n y hn
    exact ⟨m, by rw [hm]; exact hr⟩

theorem rootOf_alSet_merge (p : List (String × String)) (wf : WFP p)
    (a r0 : String) (hra : parentOf p a = a) (hrr : parentOf p r0 = r0)
    (hne : a ≠ r0) (hrk : r0 = a ∨ r0 ∈ keysOf p) (y : String) :
    rootOf (alSet p a r0) y = if rootOf p y = a then r0 else rootOf p y := by
  obtain ⟨n, hn⟩ := wf.reach y
  exact rootOf_eq_of_reaches _ (wfp_alSet_merge p wf a r0 hra hrr hne hrk) y _
    (reaches_alSet_merge p wf a r0 hra hrr hne n y hn)

/-! ## `find` specification -/

theorem findAux_succ (fuel : Nat) (s : UFState) (x : String) :
    UnionFind.findAux (fuel + 1) s x =
      match alGet (UnionFind.makeSet s x).parent x with
      | none => (x, UnionFind.makeSet s x)
      | some p =>
        if p = x then (x, UnionFind.makeSet s x)
        else
          ((UnionFind.findAux fuel (UnionFind.makeSet s x) p).1,
           { (UnionFind.findAux fuel (UnionFind.makeSet s x) p).2 with
             parent := alSet (UnionFind.findAux fuel (UnionFind.makeSet s x) p).2.parent x
               (UnionFind.findAux fuel (UnionFind.makeSet s x) p).1 }) := rfl

theorem findAux_spec (fuel : Nat) : ∀ (s : UFState) (x : String), WFP s.parent →
    (∃ n, n < fuel ∧ parentOf s.parent (iterP s.parent n x) = iterP s.parent n x) →
    (UnionFind.findAux fuel s x).1 = rootOf s.parent x ∧
    WFP (UnionFind.findAux fuel s x).2.parent ∧
    (∀ y, rootOf (UnionFind.findAux fuel s x).2.parent y = rootOf s.parent y) ∧
    keysOf (UnionFind.findAux fuel s x).2.parent =
      keysOf (UnionFind.makeSet s x).parent ∧
    (UnionFind.findAux fuel s x).2.rank = (UnionFind.makeSet s x).rank ∧
    (UnionFind.findAux fuel s x).2.parent.length =
      (UnionFind.makeSet s x).parent.length := by
  induction fuel with
  | zero =>
    intro s x wf hex
    obtain ⟨n, hn, _⟩ := hex
    omega
  | succ fuel ih =>
    intro s x wf hex
    have hsome := isSome_makeSet_self s x
    have wf1 : WFP (UnionFind.makeSet s x).parent := wfp_makeSet s x wf
    have hcong : ∀ z, parentOf (UnionFind.makeSet s x).parent z = parentOf s.parent z :=
      parentOf_makeSet s x
    obtain ⟨pv, hpv⟩ := Option.isSome_iff_exists.mp hsome
    have hparx : parentOf s.parent x = pv := by
      rw [← hcong x]
      unfold parentOf
      rw [hpv]
      rfl
    by_cases hpx : pv = x
    · have heq : UnionFind.findAux (fuel + 1) s x = (x, UnionFind.makeSet s x) := by
        rw [findAux_succ]
        simp [hpv, hpx]
      rw [heq]
      have hxroot : parentOf s.parent x = x := by rw [hparx]; exact hpx
      refine ⟨?_, wf1, fun y => rootOf_makeSet s x wf y, rfl, rfl, rfl⟩
      exact (rootOf_of_root s.parent wf x hxroot).symm
    · have heq : UnionFind.findAux (fuel + 1) s x =
          ((UnionFind.findAux fuel (UnionFind.makeSet s x) pv).1,
           { (UnionFind.findAux fuel (UnionFind.makeSet s x) pv).2 with
             parent := alSet (UnionFind.findAux fuel (UnionFind.makeSet s x) pv).2.parent x
               (UnionFind.findAux fuel (UnionFind.makeSet s x) pv).1 }) := by
        rw [findAux_succ]
        simp [hpv, hpx]
      have hmem_pv : pv ∈ keysOf (UnionFind.makeSet s x).parent :=
        wf1.closed x pv (alGet_mem _ _ _ hpv)
      have hms : UnionFind.makeSet (UnionFind.makeSet s x) pv = UnionFind.makeSet s x :=
        makeSet_of_isSome _ pv (isSome_alGet_of_mem_keys _ _ hmem_pv)
      have hxnr : parentOf s.parent x ≠ x := by rw [hparx]; exact hpx
      have hn1 : ∃ m, m < fuel ∧
          parentOf (UnionFind.makeSet s x).parent
            (iterP (UnionFind.makeSet s x).parent m pv) =
          iterP (UnionFind.makeSet s x).parent m pv := by
        obtain ⟨n, hn, hroot⟩ := hex
        cases n with
        | zero => exact absurd hroot hxnr
        | succ m =>
          refine ⟨m, by omega, ?_⟩
          rw [iterP_succ, hparx] at hroot
          rw [iterP_congr _ s.parent hcong, hcong]
          exact hroot
      obtain ⟨ih1, ih2, ih3, ih4, ih5, ih6⟩ := ih (UnionFind.makeSet s x) pv wf1 hn1
      rw [hms] at ih4 ih5 ih6
      have hroot_pv : rootOf (UnionFind.makeSet s x).parent pv = rootOf s.parent x := by
        rw [rootOf_makeSet s x wf pv, ← hparx, rootOf_parentOf s.parent wf x]
      have hr1 : (UnionFind.findAux fuel (UnionFind.makeSet s x) pv).1 =
          rootOf s.parent x := ih1.trans hroot_pv
      have hx_rs : rootOf (UnionFind.findAux fuel (UnionFind.makeSet s x) pv).2.parent x =
          (UnionFind.findAux fuel (UnionFind.makeSet s x) pv).1 := by
        rw [ih3 x, rootOf_makeSet s x wf x, ← hr1]
      have hreach : Reaches (UnionFind.findAux fuel (UnionFind.makeSet s x) pv).2.parent x
          (UnionFind.findAux fuel (UnionFind.makeSet s x) pv).1 := by
        have := rootOf_reaches _ ih2 x
        rw [hx_rs] at this
        exact this
      have hxkeys : x ∈ keysOf (UnionFind.findAux fuel (UnionFind.makeSet s x) pv).2.parent := by
        rw [ih4]
        exact mem_keys_makeSet_self s x
      have hxsome : (alGet (UnionFind.findAux fuel (UnionFind.makeSet s x) pv).2.parent x).isSome :=
        isSome_alGet_of_mem_keys _ _ hxkeys
      rw [heq]
      refine ⟨hr1, ?_, ?_, ?_, ih5, ?_⟩
      · exact wfp_alSet_compress _ ih2 x _ hreach
      · intro y
        rw [rootOf_alSet_compress _ ih2 x _ hreach y, ih3 y, rootOf_makeSet s x wf y]
      · rw [keysOf_alSet_of_isSome _ _ _ hxsome, ih4]
      · rw [length_alSet_of_isSome _ _ _ hxsome, ih6]

theorem find_spec (s : UFState) (x : String) (wf : WFP s.parent) :
    (UnionFind.find s x).1 = rootOf s.parent x ∧
    WFP (UnionFind.find s x).2.parent ∧
    (∀ y, rootOf (UnionFind.find s x).2.parent y = rootOf s.parent y) ∧
    keysOf (UnionFind.find s x).2.parent = keysOf (UnionFind.makeSet s x).parent ∧
    (UnionFind.find s x).2.rank = (UnionFind.makeSet s x).rank ∧
    (UnionFind.find s x).2.parent.length = (UnionFind.makeSet s x).parent.length :=
  findAux_spec (s.parent.length + 1) s x wf (exists_root_lt s.parent wf x)

theorem wfp_empty : WFP UnionFind.empty.parent := by
  constructor
  · intro x q h
    simp [UnionFind.empty] at h
  · intro x
    exact ⟨0, rfl⟩

theorem if_merge_iff (f : String → String) (ra rb : String) (hne : ra ≠ rb)
    (x y : String) :
    ((if f x = ra then rb else f x) = (if f y = ra then rb else f y)) ↔
    (f x = f y ∨ (f x = ra ∧ f y = rb) ∨ (f x = rb ∧ f y = ra)) := by
  by_cases hx : f x = ra <;> by_cases hy : f y = ra
  · rw [if_pos hx, if_pos hy]
    simp [hx, hy]
  · rw [if_pos hx, if_neg hy]
    constructor
    · intro h
      exact Or.inr (Or.inl ⟨hx, h.symm⟩)
    · rintro (h | ⟨h1, h2⟩ | ⟨h1, h2⟩)
      · exact absurd (h ▸ hx) hy
      · exact h2.symm
      · exact absurd (hx.symm.trans h1) hne
  · rw [if_neg hx, if_pos hy]
    constructor
    · intro h
      exact Or.inr (Or.inr ⟨h, hy⟩)
    · rintro (h | ⟨h1, h2⟩ | ⟨h1, h2⟩)
      · exact absurd (h.symm ▸ hy) hx
      · exact absurd (hy.symm.trans h2) hne
      · exact h1
  · rw [if_neg hx, if_neg hy]
    constructor
    · intro h
      exact Or.inl h
    · rintro (h | ⟨h1, h2⟩ | ⟨h1, h2⟩)
      · exact h
      · exact absurd h1 hx
      · exact absurd h2 hy

theorem union_spec (s : UFState) (a b : String) (wf : WFP s.parent) :
    WFP (UnionFind.union s a b).parent ∧
    (∀ x y, rootOf (UnionFind.union s a b).parent x =
        rootOf (UnionFind.union s a b).parent y ↔
      (rootOf s.parent x = rootOf s.parent y ∨
       (rootOf s.parent x = rootOf s.parent a ∧
        rootOf s.parent y = rootOf s.parent b) ∨
       (rootOf s.parent x = rootOf s.parent b ∧
        rootOf s.parent y = rootOf s.parent a))) := by
  obtain ⟨f1a, f1b, f1c, f1d, f1e, f1f⟩ := find_spec s a wf
  obtain ⟨f2a, f2b, f2c, f2d, f2e, f2f⟩ := find_spec (UnionFind.find s a).2 b f1b
  have hs2root : ∀ y,
      rootOf (UnionFind.find (UnionFind.find s a).2 b).2.parent y = rootOf s.parent y :=
    fun y => (f2c y).trans (f1c y)
  have hra : (UnionFind.find s a).1 = rootOf s.parent a := f1a
  have hrb : (UnionFind.find (UnionFind.find s a).2 b).1 = rootOf s.parent b := by
    rw [f2a, f1c]
  have hamem : a ∈ keysOf (UnionFind.find (UnionFind.find s a).2 b).2.parent := by
    rw [f2d]
    exact keys_makeSet_superset _ b a (by rw [f1d]; exact mem_keys_makeSet_self s a)
  have hbmem : b ∈ keysOf (UnionFind.find (UnionFind.find s a).2 b).2.parent := by
    rw [f2d]
    exact mem_keys_makeSet_self _ b
  have hramem : rootOf s.parent a ∈
      keysOf (UnionFind.find (UnionFind.find s a).2 b).2.parent := by
    have := rootOf_mem_keys _ f2b a hamem
    rw [hs2root a] at this
    exact this
  have hrbmem : rootOf s.parent b ∈
      keysOf (UnionFind.find (UnionFind.find s a).2 b).2.parent := by
    have := rootOf_mem_keys _ f2b b hbmem
    rw [hs2root b] at this
    exact this
  have hfixa : parentOf (UnionFind.find (UnionFind.find s a).2 b).2.parent
      (rootOf s.parent a) = rootOf s.parent a := by
    have := parentOf_rootOf _ f2b a
    rw [hs2root a] at this
    exact this
  have hfixb : parentOf (UnionFind.find (UnionFind.find s a).2 b).2.parent
      (rootOf s.parent b) = rootOf s.parent b := by
    have := parentOf_rootOf _ f2b b
    rw [hs2root b] at this
    exact this
  have hdef : UnionFind.union s a b =
      (if (UnionFind.find s a).1 = (UnionFind.find (UnionFind.find s a).2 b).1 then
        (UnionFind.find (UnionFind.find s a).2 b).2
      else
        if (alGet (UnionFind.find (UnionFind.find s a).2 b).2.rank
              (UnionFind.find s a).1).getD 0 <
            (alGet (UnionFind.find (UnionFind.find s a).2 b).2.rank
              (UnionFind.find (UnionFind.find s a).2 b).1).getD 0 then
          { (UnionFind.find (UnionFind.find s a).2 b).2 with
            parent := alSet (UnionFind.find (UnionFind.find s a).2 b).2.parent
              (UnionFind.find s a).1 (UnionFind.find (UnionFind.find s a).2 b).1 }
        else if (alGet (UnionFind.find (UnionFind.find s a).2 b).2.rank
              (UnionFind.find (UnionFind.find s a).2 b).1).getD 0 <
            (alGet (UnionFind.find (UnionFind.find s a).2 b).2.rank
              (UnionFind.find s a).1).getD 0 then
          { (UnionFind.find (UnionFind.find s a).2 b).2 with
            parent := alSet (UnionFind.find (UnionFind.find s a).2 b).2.parent
              (UnionFind.find (UnionFind.find s a).2 b).1 (UnionFind.find s a).1 }
        else
          { parent := alSet (UnionFind.find (UnionFind.find s a).2 b).2.parent
              (UnionFind.find (UnionFind.find s a).2 b).1 (UnionFind.find s a).1,
            rank := alSet (UnionFind.find (UnionFind.find s a).2 b).2.rank
              (UnionFind.find s a).1
              ((alGet (UnionFind.find (UnionFind.find s a).2 b).2.rank
                (UnionFind.find s a).1).getD 0 + 1) }) := rfl
  rw [hdef, hra, hrb]
  by_cases hc : rootOf s.parent a = rootOf s.parent b
  · rw [if_pos hc]
    refine ⟨f2b, ?_⟩
    intro x y
    rw [hs2root x, hs2root y]
    constructor
    · exact Or.inl
    · rintro (h | ⟨h1, h2⟩ | ⟨h1, h2⟩)
      · exact h
      · rw [h1, h2, hc]
      · rw [h1, h2, hc]
  · rw [if_neg hc]
    split_ifs with hr1 hr2
    · refine ⟨wfp_alSet_merge _ f2b _ _ hfixa hfixb hc (Or.inr hrbmem), ?_⟩
      intro x y
      have hrw := rootOf_alSet_merge _ f2b _ _ hfixa hfixb hc (Or.inr hrbmem)
      rw [hrw x, hrw y, hs2root x, hs2root y]
      exact if_merge_iff (rootOf s.parent) _ _ hc x y
    · refine ⟨wfp_alSet_merge _ f2b _ _ hfixb hfixa (Ne.symm hc) (Or.inr hramem), ?_⟩
      intro x y
      have hrw := rootOf_alSet_merge _ f2b _ _ hfixb hfixa (Ne.symm hc) (Or.inr hramem)
      rw [hrw x, hrw y, hs2root x, hs2root y]
      rw [if_merge_iff (rootOf s.parent) _ _ (Ne.symm hc) x y]
      constructor
      · rintro (h | ⟨h1, h2⟩ | ⟨h1, h2⟩)
        · exact Or.inl h
        · exact Or.inr (Or.inr ⟨h1, h2⟩)
        · exact Or.inr (Or.inl ⟨h1, h2⟩)
      · rintro (h | ⟨h1, h2⟩ | ⟨h1, h2⟩)
        · exact Or.inl h
        · exact Or.inr (Or.inr ⟨h1, h2⟩)
        · exact Or.inr (Or.inl ⟨h1, h2⟩)
    · refine ⟨wfp_alSet_merge _ f2b _ _ hfixb hfixa (Ne.symm hc) (Or.inr hramem), ?_⟩
      intro x y
      have hrw := rootOf_alSet_merge _ f2b _ _ hfixb hfixa (Ne.symm hc) (Or.inr hramem)
      rw [hrw x, hrw y, hs2root x, hs2root y]
      rw [if_merge_iff (rootOf s.parent) _ _ (Ne.symm hc) x y]
      constructor
      · rintro (h | ⟨h1, h2⟩ | ⟨h1, h2⟩)
        · exact Or.inl h
        · exact Or.inr (Or.inr ⟨h1, h2⟩)
        · exact Or.inr (Or.inl ⟨h1, h2⟩)
      · rintro (h | ⟨h1, h2⟩ | ⟨h1, h2⟩)
        · exact Or.inl h
        · exact Or.inr (Or.inr ⟨h1, h2⟩)
        · exact Or.inr (Or.inl ⟨h1, h2⟩)

theorem connected_spec (s : UFState) (x y : String) (wf : WFP s.parent) :
    ((UnionFind.connected s x y).1 = true ↔ rootOf s.parent x = rootOf s.parent y) := by
  have hdef : (UnionFind.connected s x y).1 =
      ((UnionFind.find s x).1 == (UnionFind.find (UnionFind.find s x).2 y).1) := rfl
  obtain ⟨f1a, f1b, f1c, _, _, _⟩ := find_spec s x wf
  obtain ⟨f2a, _, _, _, _, _⟩ := find_spec (UnionFind.find s x).2 y f1b
  rw [hdef, f1a, f2a, f1c y]
  exact beq_iff_eq

/-! ## Component relation of the union graph -/

theorem stepRel_symm (edges : List (String × String)) : Symmetric (stepRel edges) :=
  fun _ _ h => Or.symm h

theorem sameComp_refl (edges : List (String × String)) (x : String) :
    SameComp edges x x := Relation.ReflTransGen.refl

theorem sameComp_symm (edges : List (String × String)) {x y : String}
    (h : SameComp edges x y) : SameComp edges y x :=
  Relation.ReflTransGen.symmetric (stepRel_symm edges) h

theorem sameComp_trans (edges : List (String × String)) {x y z : String}
    (h1 : SameComp edges x y) (h2 : SameComp edges y z) : SameComp edges x z :=
  Relation.ReflTransGen.trans h1 h2

theorem sameComp_comm (edges : List (String × String)) (x y : String) :
    SameComp edges x y ↔ SameComp edges y x :=
  ⟨sameComp_symm edges, sameComp_symm edges⟩

theorem sameComp_nil (x y : String) : SameComp [] x y ↔ x = y := by
  constructor
  · intro h
    induction h with
    | refl => rfl
    | tail h1 h2 ih => rcases h2 with h2 | h2 <;> simp at h2
  · rintro rfl
    exact Relation.ReflTransGen.refl

theorem sameComp_append_left (edges e : List (String × String)) {x y : String}
    (h : SameComp edges x y) : SameComp (edges ++ e) x y := by
  refine Relation.ReflTransGen.mono ?_ h
  intro u v huv
  rcases huv with h1 | h1
  · exact Or.inl (List.mem_append_left _ h1)
  · exact Or.inr (List.mem_append_left _ h1)

theorem sameComp_append_single (edges : List (String × String)) (a b x y : String) :
    SameComp (edges ++ [(a, b)]) x y ↔
      (SameComp edges x y ∨
       (SameComp edges x a ∧ SameComp edges b y) ∨
       (SameComp edges x b ∧ SameComp edges a y)) := by
  constructor
  · intro h
    induction h with
    | refl => exact Or.inl (sameComp_refl edges x)
    | @tail c d h1 hstep ih =>
      rcases hstep with hm | hm
      · rcases List.mem_append.mp hm with hm2 | hm2
        · rcases ih with ih | ⟨g1, g2⟩ | ⟨g1, g2⟩
          · exact Or.inl (ih.tail (Or.inl hm2))
          · exact Or.inr (Or.inl ⟨g1, g2.tail (Or.inl hm2)⟩)
          · exact Or.inr (Or.inr ⟨g1, g2.tail (Or.inl hm2)⟩)
        · simp only [List.mem_singleton, Prod.mk.injEq] at hm2
          obtain ⟨hc, hd⟩ := hm2
          subst hc; subst hd
          rcases ih with ih | ⟨g1, g2⟩ | ⟨g1, g2⟩
          · exact Or.inr (Or.inl ⟨ih, sameComp_refl edges d⟩)
          · exact Or.inl (sameComp_trans edges g1 (sameComp_symm edges g2))
          · exact Or.inl g1
      · rcases List.mem_append.mp hm with hm2 | hm2
        · rcases ih with ih | ⟨g1, g2⟩ | ⟨g1, g2⟩
          · exact Or.inl (ih.tail (Or.inr hm2))
          · exact Or.inr (Or.inl ⟨g1, g2.tail (Or.inr hm2)⟩)
          · exact Or.inr (Or.inr ⟨g1, g2.tail (Or.inr hm2)⟩)
        · simp only [List.mem_singleton, Prod.mk.injEq] at hm2
          obtain ⟨hd, hc⟩ := hm2
          subst hc; subst hd
          rcases ih with ih | ⟨g1, g2⟩ | ⟨g1, g2⟩
          · exact Or.inr (Or.inr ⟨ih, sameComp_refl edges d⟩)
          · exact Or.inl g1
          · exact Or.inl (sameComp_trans edges g1 (sameComp_symm edges g2))
  · have hstepab : SameComp (edges ++ [(a, b)]) a b :=
      Relation.ReflTransGen.single (Or.inl (List.mem_append_right _ (List.mem_singleton.mpr rfl)))
    rintro (h | ⟨h1, h2⟩ | ⟨h1, h2⟩)
    · exact sameComp_append_left edges _ h
    · exact sameComp_trans _ (sameComp_append_left edges _ h1)
        (sameComp_trans _ hstepab (sameComp_append_left edges _ h2))
    · exact sameComp_trans _ (sameComp_append_left edges _ h1)
        (sameComp_trans _ (sameComp_symm _ hstepab) (sameComp_append_left edges _ h2))

/-! ## The union-find invariant and the connectivity theorem -/

theorem ufinv_union (edges : List (String × String)) (s : UFState) (a b : String)
    (h : UFInv edges s) : UFInv (edges ++ [(a, b)]) (UnionFind.union s a b) := by
  obtain ⟨wf, hrel⟩ := h
  obtain ⟨wf2, hroot⟩ := union_spec s a b wf
  refine ⟨wf2, ?_⟩
  intro x y
  rw [hroot x y, sameComp_append_single edges a b x y]
  constructor
  · rintro (h | ⟨h1, h2⟩ | ⟨h1, h2⟩)
    · exact Or.inl ((hrel x y).mp h)
    · exact Or.inr (Or.inl ⟨(hrel x a).mp h1,
        sameComp_symm edges ((hrel y b).mp h2)⟩)
    · exact Or.inr (Or.inr ⟨(hrel x b).mp h1,
        sameComp_symm edges ((hrel y a).mp h2)⟩)
  · rintro (h | ⟨h1, h2⟩ | ⟨h1, h2⟩)
    · exact Or.inl ((hrel x y).mpr h)
    · exact Or.inr (Or.inl ⟨(hrel x a).mpr h1,
        (hrel y b).mpr (sameComp_symm edges h2)⟩)
    · exact Or.inr (Or.inr ⟨(hrel x b).mpr h1,
        (hrel y a).mpr (sameComp_symm edges h2)⟩)

theorem ufinv_empty : UFInv [] UnionFind.empty := by
  refine ⟨wfp_empty, ?_⟩
  intro x y
  rw [rootOf_of_root _ wfp_empty x rfl, rootOf_of_root _ wfp_empty y rfl]
  exact (sameComp_nil x y).symm

theorem ufinv_foldl (ops : List (String × String)) :
    ∀ (edges : List (String × String)) (s : UFState), UFInv edges s →
      UFInv (edges ++ ops) (ops.foldl (fun t e => UnionFind.union t e.1 e.2) s) := by
  induction ops with
  | nil =>
    intro edges s h
    simpa using h
  | cons e ops ih =>
    intro edges s h
    have h1 := ufinv_union edges s e.1 e.2 h
    have h2 := ih (edges ++ [(e.1, e.2)]) _ h1
    simpa [List.append_assoc] using h2

/-- C3: for every sequence of `union(a, b)` calls on a fresh `UnionFind`
instance and every pair of ids `x`, `y`, `connected(x, y)` returns true if
and only if `x` and `y` lie in the same connected component of the
undirected graph whose edges are the argument pairs of the `union` calls
made so far (ids never passed to any operation are singleton components,
since `SameComp` relates them only to themselves). -/
theorem uf_connected_iff_sameComp (ops : List (String × String)) (x y : String) :
    ((UnionFind.connected (runUnions ops) x y).1 = true) ↔ SameComp ops x y := by
  have hinv := ufinv_foldl ops [] UnionFind.empty ufinv_empty
  simp only [List.nil_append] at hinv
  obtain ⟨wf, hrel⟩ := hinv
  rw [connected_spec (runUnions ops) x y wf]
  exact hrel x y

/-! ## The simulator pipeline: shared characterizations -/

theorem simulateCircuit_success_fields (input : CircuitInput)
    (dc : Ckt → SolverOutcome) (tr : Translation) (m : List (String × ℚ))
    (hne : (input.nodes.isEmpty || input.components.isEmpty) = false)
    (htr : translateCircuit input = some tr)
    (hdc : dc tr.ckt = SolverOutcome.success m) :
    (simulateCircuit input dc).totalCurrent =
      computeTotalCurrent (input.components.filter (fun c => c.type == "battery")) m ∧
    (simulateCircuit input dc).bulbsOnCount =
      ((input.components.filter (fun c => c.type == "bulb")).foldl
        (bulbStep input.nodes tr.nodeToNet tr.netNames m)
        ⟨initialBulbStates input.components, 0, false⟩).bulbsOnCount ∧
    (simulateCircuit input dc).bulbStates =
      ((input.components.filter (fun c => c.type == "bulb")).foldl
        (bulbStep input.nodes tr.nodeToNet tr.netNames m)
        ⟨initialBulbStates input.components, 0, false⟩).bulbStates ∧
    (simulateCircuit input dc).batteryIndices =
      (if SHORT_CIRCUIT_CURRENT <
            computeTotalCurrent (input.components.filter (fun c => c.type == "battery")) m ∧
          ((input.components.filter (fun c => c.type == "bulb")).foldl
            (bulbStep input.nodes tr.nodeToNet tr.netNames m)
            ⟨initialBulbStates input.components, 0, false⟩).bulbsOnCount = 0 ∧
          0 < (input.components.filter (fun c => c.type == "battery")).length then
        getAllBatteryIndices input.components
      else tr.shortedIdx) := by
  refine ⟨?_, ?_, ?_, ?_⟩ <;>
    simp only [simulateCircuit, hne, Bool.false_eq_true, if_false, htr, hdc,
      emptyResult]

/-! ## C2: incomplete-circuit results -/

/-- C2 counterexample: for `bulbOnlyInput` — non-empty node and component
collections but no `battery_minus` node, so no ground exists — the
returned `bulbStates` map is not empty (it holds the default entry for the
bulb), refuting the claim that this incomplete-circuit result has empty
`bulbStates`. -/
theorem incomplete_result_bulbStates_nonempty :
    (simulateCircuit bulbOnlyInput (fun _ => SolverOutcome.fails)).bulbStates ≠ [] := by
  decide

/-- C2 (amended): for empty node or component collections, and for inputs
in which no node has role `battery_minus`, `simulateCircuit` returns the
incomplete-circuit result for every solver (so the solver is never
consulted): `hasClosedLoop = false`, `bulbsOnCount = 0`,
`totalCurrent = 0`, empty `batteryIndices` and `nodeVoltages`; and
`bulbStates` is empty in the empty-input case but holds the initial
default entry for each bulb in the no-ground case. -/
theorem simulateCircuit_incomplete (input : CircuitInput) (dc : Ckt → SolverOutcome)
    (h : input.nodes = [] ∨ input.components = [] ∨
      (∀ n ∈ input.nodes, n.role ≠ some "battery_minus")) :
    (simulateCircuit input dc).hasClosedLoop = false ∧
    (simulateCircuit input dc).bulbsOnCount = 0 ∧
    (simulateCircuit input dc).totalCurrent = 0 ∧
    (simulateCircuit input dc).batteryIndices = [] ∧
    (simulateCircuit input dc).nodeVoltages = [] ∧
    (simulateCircuit input dc).bulbStates =
      (if input.nodes.isEmpty || input.components.isEmpty then []
       else initialBulbStates input.components) := by
  by_cases hb : (input.nodes.isEmpty || input.components.isEmpty) = true
  · simp [simulateCircuit, hb, emptyResult]
  · have hb2 : (input.nodes.isEmpty || input.components.isEmpty) = false := by
      simpa using hb
    have hnonempty : ∀ n ∈ input.nodes, n.role ≠ some "battery_minus" := by
      rcases h with h | h | h
      · rw [h] at hb2; simp at hb2
      · rw [h] at hb2; simp at hb2
      · exact h
    have hfind : input.nodes.find? (fun n => n.role == some "battery_minus") = none := by
      apply List.find?_eq_none.mpr
      intro n hn
      simpa using hnonempty n hn
    have htr : translateCircuit input = none := by
      simp [translateCircuit, assignNetNames, hfind]
    simp [simulateCircuit, hb2, htr, emptyResult]

theorem simulateCircuit_incomplete_witness :
    (simulateCircuit bulbOnlyInput (fun _ => SolverOutcome.throws)).totalCurrent = 0 :=
  (simulateCircuit_incomplete bulbOnlyInput (fun _ => SolverOutcome.throws)
    (Or.inr (Or.inr (by decide)))).2.2.1

/-! ## C7: solver failure flags every battery -/

/-- C7: whenever the solver reports failure (`undefined`) or raises, the
result of `simulateCircuit` lists every battery position (1-based, in
appearance order) in `batteryIndices` and keeps all other fields at their
zeroed defaults, with every bulb at its initial default state; in the
embedding both outcomes flow into the same degraded result, so nothing
escapes to the caller. -/
theorem solver_failure_flags_all (input : CircuitInput) (dc : Ckt → SolverOutcome)
    (tr : Translation)
    (hne : (input.nodes.isEmpty || input.components.isEmpty) = false)
    (htr : translateCircuit input = some tr)
    (hdc : dc tr.ckt = SolverOutcome.fails ∨ dc tr.ckt = SolverOutcome.throws) :
    simulateCircuit input dc =
      { hasClosedLoop := false, bulbsOnCount := 0,
        bulbStates := initialBulbStates input.components,
        nodeVoltages := [], totalCurrent := 0,
        batteryIndices := getAllBatteryIndices input.components } := by
  rcases hdc with hd | hd <;>
    simp [simulateCircuit, hne, htr, hd, emptyResult]

theorem solver_failure_flags_all_witness :
    simulateCircuit oneBatteryInput (fun _ => SolverOutcome.fails) =
      { hasClosedLoop := false, bulbsOnCount := 0,
        bulbStates := initialBulbStates oneBatteryInput.components,
        nodeVoltages := [], totalCurrent := 0,
        batteryIndices := getAllBatteryIndices oneBatteryInput.components } :=
  solver_failure_flags_all oneBatteryInput (fun _ => SolverOutcome.fails) oneBatteryTr
    (by decide) (by decide) (Or.inl rfl)

/-! ## C8: no-load short-circuit heuristic -/

/-- C8: on solver success, when the computed `totalCurrent` exceeds
100 mA, no bulb is on, and at least one battery exists, the returned
`batteryIndices` equals the list of all battery positions (1-based, in
appearance order), replacing whatever the translation recorded; the
condition reads the final computed `totalCurrent` and `bulbsOnCount`, so
the check acts after bulb-state computation and the closed-loop check. -/
theorem high_current_overrides_batteryIndices (input : CircuitInput)
    (dc : Ckt → SolverOutcome) (tr : Translation) (m : List (String × ℚ))
    (hne : (input.nodes.isEmpty || input.components.isEmpty) = false)
    (htr : translateCircuit input = some tr)
    (hdc : dc tr.ckt = SolverOutcome.success m)
    (hcur : SHORT_CIRCUIT_CURRENT < (simulateCircuit input dc).totalCurrent)
    (hbulbs : (simulateCircuit input dc).bulbsOnCount = 0)
    (hbat : 0 < (input.components.filter (fun c => c.type == "battery")).length) :
    (simulateCircuit input dc).batteryIndices = getAllBatteryIndices input.components := by
  obtain ⟨h1, h2, _, h4⟩ := simulateCircuit_success_fields input dc tr m hne htr hdc
  rw [h1] at hcur
  rw [h2] at hbulbs
  rw [h4, if_pos ⟨hcur, hbulbs, hbat⟩]

theorem high_current_overrides_batteryIndices_witness :
    (simulateCircuit oneBatteryInput oneBatterySolver).batteryIndices =
      getAllBatteryIndices oneBatteryInput.components :=
  high_current_overrides_batteryIndices oneBatteryInput oneBatterySolver
    oneBatteryTr [("I(b1)", 1)] (by decide) (by decide) rfl (by decide) (by decide)
    (by decide)

/-! ## C5/C9: netlist construction lemmas -/

theorem shortedStep_mono (nodes : List Node) (ntn : List (String × String))
    (shorted : List String) (b : Component) (x : String) (hx : x ∈ shorted) :
    x ∈ shortedStep nodes ntn shorted b := by
  simp only [shortedStep]
  cases (nodes.filter (fun n => n.componentId == b.id)).find?
      (fun n => n.role == some "battery_plus") with
  | none => exact hx
  | some pn =>
    cases (nodes.filter (fun n => n.componentId == b.id)).find?
        (fun n => n.role == some "battery_minus") with
    | none => exact hx
    | some mn =>
      show x ∈ (if alGet ntn pn.id = alGet ntn mn.id then
        (if shorted.contains b.id = true then shorted else shorted ++ [b.id])
        else shorted)
      by_cases hif : alGet ntn pn.id = alGet ntn mn.id
      · rw [if_pos hif]
        by_cases hc : shorted.contains b.id = true
        · rw [if_pos hc]; exact hx
        · rw [if_neg hc]; exact List.mem_append_left _ hx
      · rw [if_neg hif]; exact hx

theorem shortedStep_hit (nodes : List Node) (ntn : List (String × String))
    (shorted : List String) (b : Component) (pn mn : Node)
    (hp : (nodes.filter (fun n => n.componentId == b.id)).find?
      (fun n => n.role == some "battery_plus") = some pn)
    (hm : (nodes.filter (fun n => n.componentId == b.id)).find?
      (fun n => n.role == some "battery_minus") = some mn)
    (hnet : alGet ntn pn.id = alGet ntn mn.id) :
    b.id ∈ shortedStep nodes ntn shorted b := by
  simp only [shortedStep, hp, hm]
  rw [if_pos hnet]
  by_cases hc : shorted.contains b.id = true
  · rw [if_pos hc]
    exact List.mem_of_elem_eq_true hc
  · rw [if_neg hc]
    exact List.mem_append_right _ (List.mem_singleton.mpr rfl)

theorem shortedStep_foldl_mono (nodes : List Node) (ntn : List (String × String)) :
    ∀ (l : List Component) (acc : List String) (x : String), x ∈ acc →
      x ∈ l.foldl (shortedStep nodes ntn) acc := by
  intro l
  induction l with
  | nil => intro acc x hx; exact hx
  | cons hd tl ih =>
    intro acc x hx
    exact ih _ x (shortedStep_mono nodes ntn acc hd x hx)

theorem mem_getShortedBatteryIds (components : List Component) (nodes : List Node)
    (ntn : List (String × String)) (b : Component) (pn mn : Node)
    (hb : b ∈ components.filter (fun c => c.type == "battery"))
    (hp : (nodes.filter (fun n => n.componentId == b.id)).find?
      (fun n => n.role == some "battery_plus") = some pn)
    (hm : (nodes.filter (fun n => n.componentId == b.id)).find?
      (fun n => n.role == some "battery_minus") = some mn)
    (hnet : alGet ntn pn.id = alGet ntn mn.id) :
    b.id ∈ getShortedBatteryIds components nodes ntn := by
  unfold getShortedBatteryIds
  suffices haux : ∀ (l : List Component) (acc : List String), b ∈ l →
      b.id ∈ l.foldl (shortedStep nodes ntn) acc by
    exact haux _ [] hb
  intro l
  induction l with
  | nil => intro acc h; simp at h
  | cons hd tl ih =>
    intro acc hmem
    rcases List.mem_cons.mp hmem with he | he
    · subst he
      rw [List.foldl_cons]
      exact shortedStep_foldl_mono nodes ntn tl _ b.id
        (shortedStep_hit nodes ntn acc b pn mn hp hm hnet)
    · rw [List.foldl_cons]
      exact ih _ he

theorem addBattery_shorted (nodes : List Node) (ntn nn : List (String × String))
    (nti : List (String × Int)) (sh : List String) (acc : Ckt × List Nat)
    (i : Nat) (b : Component) (hc : sh.contains b.id = true) :
    addBattery nodes ntn nn nti sh acc (i, b) = (acc.1, acc.2 ++ [i + 1]) := by
  simp only [addBattery]
  rw [if_pos hc]

theorem addBattery_snd_mono (nodes : List Node) (ntn nn : List (String × String))
    (nti : List (String × Int)) (sh : List String) (acc : Ckt × List Nat)
    (ib : Nat × Component) (x : Nat) (hx : x ∈ acc.2) :
    x ∈ (addBattery nodes ntn nn nti sh acc ib).2 := by
  simp only [addBattery]
  by_cases hc : sh.contains ib.2.id = true
  · rw [if_pos hc]
    exact List.mem_append_left _ hx
  · rw [if_neg hc]
    cases (nodes.filter (fun n => n.componentId == ib.2.id)).find?
        (fun n => n.role == some "battery_plus") with
    | none => exact hx
    | some pn =>
      cases (nodes.filter (fun n => n.componentId == ib.2.id)).find?
          (fun n => n.role == some "battery_minus") with
      | none => exact hx
      | some mn => exact hx

theorem addBattery_foldl_snd_mono (nodes : List Node) (ntn nn : List (String × String))
    (nti : List (String × Int)) (sh : List String) :
    ∀ (l : List (Nat × Component)) (acc : Ckt × List Nat) (x : Nat), x ∈ acc.2 →
      x ∈ (l.foldl (addBattery nodes ntn nn nti sh) acc).2 := by
  intro l
  induction l with
  | nil => intro acc x hx; exact hx
  | cons hd tl ih =>
    intro acc x hx
    exact ih _ x (addBattery_snd_mono nodes ntn nn nti sh acc hd x hx)

theorem addBattery_foldl_mem (nodes : List Node) (ntn nn : List (String × String))
    (nti : List (String × Int)) (sh : List String) :
    ∀ (l : List (Nat × Component)) (acc : Ckt × List Nat) (i : Nat) (b : Component),
      (i, b) ∈ l → sh.contains b.id = true →
      (i + 1) ∈ (l.foldl (addBattery nodes ntn nn nti sh) acc).2 := by
  intro l
  induction l with
  | nil => intro acc i b h _; simp at h
  | cons hd tl ih =>
    intro acc i b hmem hc
    rcases List.mem_cons.mp hmem with he | he
    · rw [List.foldl_cons, ← he, addBattery_shorted nodes ntn nn nti sh acc i b hc]
      exact addBattery_foldl_snd_mono nodes ntn nn nti sh tl _ (i + 1) (by simp)
    · rw [List.foldl_cons]
      exact ih _ i b he hc

theorem addPot_elements_mono (nodes : List Node) (ntn nn : List (String × String))
    (nti : List (String × Int)) (c : Ckt) (pot : Component) (e : CktElement)
    (he : e ∈ c.elements) : e ∈ (addPot nodes ntn nn nti c pot).elements := by
  simp only [addPot]
  split
  · exact List.mem_append_left _ he
  · exact he

theorem addPot_foldl_elements_mono (nodes : List Node) (ntn nn : List (String × String))
    (nti : List (String × Int)) :
    ∀ (l : List Component) (c : Ckt) (e : CktElement), e ∈ c.elements →
      e ∈ (l.foldl (addPot nodes ntn nn nti) c).elements := by
  intro l
  induction l with
  | nil => intro c e he; exact he
  | cons hd tl ih =>
    intro c e he
    exact ih _ e (addPot_elements_mono nodes ntn nn nti c hd e he)

theorem addPot_hit (nodes : List Node) (ntn nn : List (String × String))
    (nti : List (String × Int)) (c : Ckt) (pot : Component) (n1 n2 : Node)
    (hnodes : nodes.filter (fun n => n.componentId == pot.id) = [n1, n2])
    (hres : pot.resistance = none ∨ pot.resistance = some 0) :
    CktElement.res (getNodeIndex n1.id ntn nn nti) (getNodeIndex n2.id ntn nn nti)
      500 pot.id ∈ (addPot nodes ntn nn nti c pot).elements := by
  have hr : (match pot.resistance with
      | none => (500 : ℚ)
      | some rv => if rv = 0 then 500 else rv) = 500 := by
    rcases hres with h | h <;> simp [h]
  simp only [addPot, hnodes, hr, Ckt.r]
  exact List.mem_append_right _ (List.mem_singleton.mpr rfl)

theorem addPot_foldl_mem (nodes : List Node) (ntn nn : List (String × String))
    (nti : List (String × Int)) :
    ∀ (l : List Component) (c : Ckt) (pot : Component) (n1 n2 : Node),
      pot ∈ l →
      nodes.filter (fun n => n.componentId == pot.id) = [n1, n2] →
      (pot.resistance = none ∨ pot.resistance = some 0) →
      CktElement.res (getNodeIndex n1.id ntn nn nti) (getNodeIndex n2.id ntn nn nti)
        500 pot.id ∈ (l.foldl (addPot nodes ntn nn nti) c).elements := by
  intro l
  induction l with
  | nil => intro c pot n1 n2 h _ _; simp at h
  | cons hd tl ih =>
    intro c pot n1 n2 hmem hnodes hres
    rcases List.mem_cons.mp hmem with he | he
    · rw [List.foldl_cons, ← he]
      exact addPot_foldl_elements_mono nodes ntn nn nti tl _ _
        (addPot_hit nodes ntn nn nti c pot n1 n2 hnodes hres)
    · rw [List.foldl_cons]
      exact ih _ pot n1 n2 he hnodes hres

theorem translateCircuit_parts (input : CircuitInput) (tr : Translation)
    (htr : translateCircuit input = some tr) :
    tr.nodeToNet = (buildElectricalNets input.nodes input.connections).2 ∧
    tr.netNames = (assignNetNames (buildElectricalNets input.nodes input.connections).1
      input.nodes).netNames ∧
    (∃ c0 : Ckt, tr.shortedIdx =
      (((input.components.filter (fun c => c.type == "battery")).enum).foldl
        (addBattery input.nodes tr.nodeToNet tr.netNames tr.netToIndex
          (getShortedBatteryIds input.components input.nodes tr.nodeToNet))
        (c0, [])).2) ∧
    (∃ c1 : Ckt, tr.ckt =
      (input.components.filter (fun c => c.type == "potentiometer")).foldl
        (addPot input.nodes tr.nodeToNet tr.netNames tr.netToIndex) c1) := by
  simp only [translateCircuit] at htr
  cases hg : (assignNetNames (buildElectricalNets input.nodes input.connections).1
      input.nodes).groundNet with
  | none =>
    simp only [hg] at htr
    exact absurd htr (by simp)
  | some g =>
    simp only [hg] at htr
    by_cases hge : g = ""
    · rw [if_pos hge] at htr
      exact absurd htr (by simp)
    · rw [if_neg hge] at htr
      have heq := Option.some.inj htr
      subst heq
      exact ⟨rfl, rfl, ⟨_, rfl⟩, ⟨_, rfl⟩⟩

/-! ## C5: self-shorted batteries are flagged and excluded -/

/-- C5: a battery whose role-tagged plus and minus terminals resolve to
the same net is recorded by its 1-based position (order of appearance
among battery components) in the fault list produced by translation, and
its loop step contributes no netlist element: it passes the circuit
object through unchanged, only appending the fault index, while the fold
continues over the remaining components. -/
theorem shorted_battery_excluded (input : CircuitInput) (tr : Translation)
    (i : Nat) (b : Component) (pn mn : Node)
    (htr : translateCircuit input = some tr)
    (hib : (i, b) ∈ (input.components.filter (fun c => c.type == "battery")).enum)
    (hp : (input.nodes.filter (fun n => n.componentId == b.id)).find?
      (fun n => n.role == some "battery_plus") = some pn)
    (hm : (input.nodes.filter (fun n => n.componentId == b.id)).find?
      (fun n => n.role == some "battery_minus") = some mn)
    (hnet : alGet tr.nodeToNet pn.id = alGet tr.nodeToNet mn.id) :
    (i + 1) ∈ tr.shortedIdx ∧
    ∀ (acc : Ckt × List Nat),
      addBattery input.nodes tr.nodeToNet tr.netNames tr.netToIndex
        (getShortedBatteryIds input.components input.nodes tr.nodeToNet) acc (i, b) =
      (acc.1, acc.2 ++ [i + 1]) := by
  have hbmem : b ∈ input.components.filter (fun c => c.type == "battery") := by
    obtain ⟨hlt, heqb⟩ := List.mem_enum hib
    rw [heqb]
    exact List.getElem_mem hlt
  have hshort : b.id ∈ getShortedBatteryIds input.components input.nodes tr.nodeToNet :=
    mem_getShortedBatteryIds input.components input.nodes tr.nodeToNet b pn mn
      hbmem hp hm hnet
  have hcontains : (getShortedBatteryIds input.components input.nodes
      tr.nodeToNet).contains b.id = true := List.elem_eq_true_of_mem hshort
  obtain ⟨_, _, ⟨c0, hsi⟩, _⟩ := translateCircuit_parts input tr htr
  constructor
  · rw [hsi]
    exact addBattery_foldl_mem _ _ _ _ _ _ _ i b hib hcontains
  · intro acc
    exact addBattery_shorted _ _ _ _ _ acc i b hcontains

theorem shorted_battery_excluded_witness :
    (0 + 1) ∈ shortedBatteryTr.shortedIdx :=
  (shorted_battery_excluded shortedBatteryInput shortedBatteryTr 0
    ⟨"b1", "battery", none⟩ ⟨"n1", "b1", some "battery_plus"⟩
    ⟨"n2", "b1", some "battery_minus"⟩ (by decide) (by decide) (by decide)
    (by decide) (by decide)).1

/-! ## C9: falsy potentiometer resistance falls back to 500 Ω -/

/-- C9: a two-terminal potentiometer whose stored resistance is absent or
equal to 0 (both falsy under `pot.resistance || 500`) contributes a
resistor of exactly 500 Ω between its two nets to the netlist; in
particular a stored 0 is silently replaced by the default rather than
emitted as a 0 Ω element. -/
theorem pot_falsy_resistance_default (input : CircuitInput) (tr : Translation)
    (pot : Component) (n1 n2 : Node)
    (htr : translateCircuit input = some tr)
    (hpot : pot ∈ input.components.filter (fun c => c.type == "potentiometer"))
    (hnodes : input.nodes.filter (fun n => n.componentId == pot.id) = [n1, n2])
    (hres : pot.resistance = none ∨ pot.resistance = some 0) :
    CktElement.res (getNodeIndex n1.id tr.nodeToNet tr.netNames tr.netToIndex)
      (getNodeIndex n2.id tr.nodeToNet tr.netNames tr.netToIndex) 500 pot.id
      ∈ tr.ckt.elements := by
  obtain ⟨_, _, _, ⟨c1, hckt⟩⟩ := translateCircuit_parts input tr htr
  rw [hckt]
  exact addPot_foldl_mem _ _ _ _ _ c1 pot n1 n2 hpot hnodes hres

theorem pot_falsy_resistance_default_witness :
    CktElement.res
      (getNodeIndex "n5" potZeroTr.nodeToNet potZeroTr.netNames potZeroTr.netToIndex)
      (getNodeIndex "n6" potZeroTr.nodeToNet potZeroTr.netNames potZeroTr.netToIndex)
      500 "p1" ∈ potZeroTr.ckt.elements :=
  pot_falsy_resistance_default potZeroInput potZeroTr
    ⟨"p1", "potentiometer", some 0⟩ ⟨"n5", "p1", some "potentiometer"⟩
    ⟨"n6", "p1", some "potentiometer"⟩ (by decide) (by decide) (by decide)
    (Or.inr (by decide))

/-! ## C6/C10: bulb-state computation -/

theorem bulbStep_lookup_ne (nodes : List Node) (ntn nn : List (String × String))
    (dcResult : List (String × ℚ)) (acc : BulbAcc) (c : Component) (key : String)
    (hne : c.id ≠ key) :
    alGet (bulbStep nodes ntn nn dcResult acc c).bulbStates key =
      alGet acc.bulbStates key := by
  simp only [bulbStep]
  split
  · exact alGet_alSet_ne _ _ _ _ (fun h => hne h.symm)
  · rfl

theorem bulbStep_foldl_lookup_ne (nodes : List Node) (ntn nn : List (String × String))
    (dcResult : List (String × ℚ)) :
    ∀ (l : List Component) (acc : BulbAcc) (key : String),
      (∀ c ∈ l, c.id ≠ key) →
      alGet (l.foldl (bulbStep nodes ntn nn dcResult) acc).bulbStates key =
        alGet acc.bulbStates key := by
  intro l
  induction l with
  | nil => intro acc key _; rfl
  | cons hd tl ih =>
    intro acc key hall
    rw [List.foldl_cons, ih _ key (fun c hc => hall c (List.mem_cons_of_mem _ hc)),
      bulbStep_lookup_ne nodes ntn nn dcResult acc hd key
        (hall hd (List.mem_cons_self _ _))]

theorem bulbStep_foldl_lookup (nodes : List Node) (ntn nn : List (String × String))
    (dcResult : List (String × ℚ)) :
    ∀ (l : List Component) (acc : BulbAcc) (b : Component) (m1 m2 : Node),
      b ∈ l → (l.map (fun c => c.id)).Nodup →
      nodes.filter (fun n => n.componentId == b.id) = [m1, m2] →
      alGet (l.foldl (bulbStep nodes ntn nn dcResult) acc).bulbStates b.id =
        some (computeBulbState (bulbVoltage (getNetName m1.id ntn nn) dcResult)
          (bulbVoltage (getNetName m2.id ntn nn) dcResult)) := by
  intro l
  induction l with
  | nil => intro acc b m1 m2 h _ _; simp at h
  | cons hd tl ih =>
    intro acc b m1 m2 hmem hnd hnodes
    rcases List.mem_cons.mp hmem with he | he
    · subst he
      rw [List.foldl_cons]
      have hlater : ∀ c ∈ tl, c.id ≠ b.id := by
        intro c hc hce
        simp only [List.map_cons, List.nodup_cons] at hnd
        exact hnd.1 (hce ▸ List.mem_map.mpr ⟨c, hc, rfl⟩)
      rw [bulbStep_foldl_lookup_ne nodes ntn nn dcResult tl _ b.id hlater]
      simp only [bulbStep, hnodes]
      exact alGet_alSet_self _ _ _
    · rw [List.foldl_cons]
      have hnd2 : (tl.map (fun c => c.id)).Nodup := by
        simp only [List.map_cons, List.nodup_cons] at hnd
        exact hnd.2
      exact ih _ b m1 m2 he hnd2 hnodes

theorem computeBulbState_classification (v1 v2 : ℚ) :
    (computeBulbState v1 v2).current = |v1 - v2| / BULB_RESISTANCE ∧
    ((computeBulbState v1 v2).isBurnedOut = some true ↔
      BURNOUT_CURRENT < (computeBulbState v1 v2).current) ∧
    ((computeBulbState v1 v2).isOn = true ↔
      (¬ BURNOUT_CURRENT < (computeBulbState v1 v2).current ∧
       CURRENT_THRESHOLD < (computeBulbState v1 v2).current)) ∧
    ((computeBulbState v1 v2).isBurnedOut = some true →
      (computeBulbState v1 v2).isOn = false) := by
  refine ⟨rfl, ?_, ?_, ?_⟩
  · simp [computeBulbState]
  · simp [computeBulbState, Bool.and_eq_true, not_lt]
  · intro h
    simp only [computeBulbState, Option.some.injEq, decide_eq_true_eq] at h
    simp [computeBulbState, h, not_lt.mpr (le_of_lt h)]

/-- C6: on solver success, the stored state of every bulb with exactly
two terminals satisfies the classification of the source: `isBurnedOut`
iff current exceeds 50 mA, `isOn` iff not burned out and current exceeds
1 mA (so a burned-out bulb is never on), where the current is
|V1 − V2| / 500 Ω with `"gnd"` read as exactly 0 V. -/
theorem bulb_state_classification (input : CircuitInput) (dc : Ckt → SolverOutcome)
    (tr : Translation) (m : List (String × ℚ)) (bulb : Component) (m1 m2 : Node)
    (hne : (input.nodes.isEmpty || input.components.isEmpty) = false)
    (htr : translateCircuit input = some tr)
    (hdc : dc tr.ckt = SolverOutcome.success m)
    (hbulb : bulb ∈ input.components.filter (fun c => c.type == "bulb"))
    (hnodup : ((input.components.filter (fun c => c.type == "bulb")).map
      (fun c => c.id)).Nodup)
    (hnodes : input.nodes.filter (fun n => n.componentId == bulb.id) = [m1, m2]) :
    ∃ st, alGet (simulateCircuit input dc).bulbStates bulb.id = some st ∧
      st.current = |bulbVoltage (getNetName m1.id tr.nodeToNet tr.netNames) m -
        bulbVoltage (getNetName m2.id tr.nodeToNet tr.netNames) m| / BULB_RESISTANCE ∧
      (st.isBurnedOut = some true ↔ BURNOUT_CURRENT < st.current) ∧
      (st.isOn = true ↔
        (¬ BURNOUT_CURRENT < st.current ∧ CURRENT_THRESHOLD < st.current)) ∧
      (st.isBurnedOut = some true → st.isOn = false) := by
  obtain ⟨_, _, h3, _⟩ := simulateCircuit_success_fields input dc tr m hne htr hdc
  rw [h3, bulbStep_foldl_lookup input.nodes tr.nodeToNet tr.netNames m _ _ bulb m1 m2
    hbulb hnodup hnodes]
  exact ⟨_, rfl, computeBulbState_classification _ _⟩

theorem bulb_state_classification_witness :
    ∃ st, alGet (simulateCircuit loopInput loopSolver).bulbStates
        (Component.id ⟨"L1", "bulb", none⟩) = some st ∧
      st.current = |bulbVoltage (getNetName (Node.id ⟨"n3", "L1", none⟩)
          loopTr.nodeToNet loopTr.netNames) [("net1", 5), ("I(b1)", 1/100)] -
        bulbVoltage (getNetName (Node.id ⟨"n4", "L1", none⟩)
          loopTr.nodeToNet loopTr.netNames) [("net1", 5), ("I(b1)", 1/100)]| /
          BULB_RESISTANCE ∧
      (st.isBurnedOut = some true ↔ BURNOUT_CURRENT < st.current) ∧
      (st.isOn = true ↔
        (¬ BURNOUT_CURRENT < st.current ∧ CURRENT_THRESHOLD < st.current)) ∧
      (st.isBurnedOut = some true → st.isOn = false) :=
  bulb_state_classification loopInput loopSolver loopTr [("net1", 5), ("I(b1)", 1/100)]
    ⟨"L1", "bulb", none⟩ ⟨"n3", "L1", none⟩ ⟨"n4", "L1", none⟩ (by decide) (by decide)
    rfl (by decide) (by decide) (by decide)

theorem bulbVoltage_alSet_missing (net : Option String) (m : List (String × ℚ))
    (nm : String) (hmiss : alGet m nm = none) :
    bulbVoltage net (alSet m nm 0) = bulbVoltage net m := by
  unfold bulbVoltage
  by_cases hg : net = some "gnd"
  · rw [if_pos hg, if_pos hg]
  · rw [if_neg hg, if_neg hg]
    cases net with
    | none => rfl
    | some s =>
      show (alGet (alSet m nm 0) s).getD 0 = (alGet m s).getD 0
      by_cases hs : s = nm
      · subst hs
        rw [alGet_alSet_self, hmiss]
        rfl
      · rw [alGet_alSet_ne m nm s 0 hs]

/-- C10: on solver success, when either terminal of a two-terminal bulb
resolves to a non-ground net name that is absent from the solver's voltage
map, that terminal's voltage reads as exactly 0 V (`dcResult[net] ?? 0`),
and the bulb still receives a fully populated state entry whose every field
is computed as if the solver had returned 0 V for that net: the stored
state equals `computeBulbState` of both terminal voltages read against the
voltage map extended with a 0 V entry for the missing net. -/
theorem bulb_missing_net_reads_zero (input : CircuitInput) (dc : Ckt → SolverOutcome)
    (tr : Translation) (m : List (String × ℚ)) (bulb : Component) (m1 m2 mk : Node)
    (nm : String)
    (hne : (input.nodes.isEmpty || input.components.isEmpty) = false)
    (htr : translateCircuit input = some tr)
    (hdc : dc tr.ckt = SolverOutcome.success m)
    (hbulb : bulb ∈ input.components.filter (fun c => c.type == "bulb"))
    (hnodup : ((input.components.filter (fun c => c.type == "bulb")).map
      (fun c => c.id)).Nodup)
    (hnodes : input.nodes.filter (fun n => n.componentId == bulb.id) = [m1, m2])
    (_hk : mk = m1 ∨ mk = m2)
    (hnet : getNetName mk.id tr.nodeToNet tr.netNames = some nm)
    (hng : nm ≠ "gnd")
    (hmiss : alGet m nm = none) :
    alGet (simulateCircuit input dc).bulbStates bulb.id =
      some (computeBulbState
        (bulbVoltage (getNetName m1.id tr.nodeToNet tr.netNames) (alSet m nm 0))
        (bulbVoltage (getNetName m2.id tr.nodeToNet tr.netNames) (alSet m nm 0))) ∧
    bulbVoltage (getNetName mk.id tr.nodeToNet tr.netNames) m = 0 := by
  obtain ⟨_, _, h3, _⟩ := simulateCircuit_success_fields input dc tr m hne htr hdc
  constructor
  · rw [h3, bulbStep_foldl_lookup input.nodes tr.nodeToNet tr.netNames m _ _ bulb m1 m2
      hbulb hnodup hnodes,
      bulbVoltage_alSet_missing _ m nm hmiss, bulbVoltage_alSet_missing _ m nm hmiss]
  · rw [hnet]
    simp only [bulbVoltage]
    rw [if_neg (by simpa using hng), hmiss]
    rfl

theorem bulb_missing_net_reads_zero_witness :
    (alGet (simulateCircuit loopInput loopMissingSolver).bulbStates
        (Component.id ⟨"L1", "bulb", none⟩) =
      some (computeBulbState
        (bulbVoltage (getNetName (Node.id ⟨"n3", "L1", none⟩)
          loopTr.nodeToNet loopTr.netNames) (alSet [("I(b1)", 0)] "net1" 0))
        (bulbVoltage (getNetName (Node.id ⟨"n4", "L1", none⟩)
          loopTr.nodeToNet loopTr.netNames) (alSet [("I(b1)", 0)] "net1" 0)))) ∧
    bulbVoltage (getNetName (Node.id ⟨"n3", "L1", none⟩)
      loopTr.nodeToNet loopTr.netNames) [("I(b1)", 0)] = 0 :=
  bulb_missing_net_reads_zero loopInput loopMissingSolver loopTr [("I(b1)", 0)]
    ⟨"L1", "bulb", none⟩ ⟨"n3", "L1", none⟩ ⟨"n4", "L1", none⟩ ⟨"n3", "L1", none⟩
    "net1" (by decide) (by decide) rfl (by decide) (by decide) (by decide)
    (Or.inl rfl) (by decide) (by decide) (by decide)

/-! ## C1: `totalCurrent` keeps the last defined battery current -/

/-- C1 counterexample: with two batteries whose branch currents are both
defined in the solver map (1 A for the first battery in appearance order,
2 A for the second), the returned `totalCurrent` is 2 — each defined entry
overwrites the previous one — and not the first battery's |1| as the
claim requires. -/
theorem totalCurrent_not_first_defined :
    (simulateCircuit twoBatteryInput twoBatterySolver).totalCurrent = 2 ∧
    (simulateCircuit twoBatteryInput twoBatterySolver).totalCurrent ≠ |(1 : ℚ)| := by
  decide

theorem computeTotalCurrent_foldl (m : List (String × ℚ)) :
    ∀ (batteries : List Component) (acc : ℚ),
      batteries.foldl (fun acc b =>
        match alGet m ("I(" ++ b.id ++ ")") with
        | some v0 => |v0|
        | none => acc) acc =
      (match (batteries.filterMap (fun b => alGet m ("I(" ++ b.id ++ ")"))).getLast? with
       | some v => |v|
       | none => acc) := by
  intro batteries
  induction batteries with
  | nil => intro acc; rfl
  | cons hd tl ih =>
    intro acc
    rw [List.foldl_cons, List.filterMap_cons]
    cases hg : alGet m ("I(" ++ hd.id ++ ")") with
    | none =>
      simp only [hg]
      exact ih acc
    | some v =>
      simp only [hg]
      rw [ih |v|]
      cases hlast : tl.filterMap (fun b => alGet m ("I(" ++ b.id ++ ")")) with
      | nil => simp
      | cons w ws =>
        simp only [List.getLast?_cons_cons]
        cases hl2 : (w :: ws).getLast? with
        | none => simp at hl2
        | some u => rfl

/-- C1 (amended): on solver success, `totalCurrent` equals the absolute
value of the branch current of the last battery (in order of appearance
among battery-type components) whose branch current is defined in the
solver's result map, and equals 0 when no battery has a defined branch
current. -/
theorem totalCurrent_last_defined (input : CircuitInput) (dc : Ckt → SolverOutcome)
    (tr : Translation) (m : List (String × ℚ))
    (hne : (input.nodes.isEmpty || input.components.isEmpty) = false)
    (htr : translateCircuit input = some tr)
    (hdc : dc tr.ckt = SolverOutcome.success m) :
    (simulateCircuit input dc).totalCurrent =
      (match ((input.components.filter (fun c => c.type == "battery")).filterMap
          (fun b => alGet m ("I(" ++ b.id ++ ")"))).getLast? with
       | some v => |v|
       | none => 0) := by
  obtain ⟨h1, _, _, _⟩ := simulateCircuit_success_fields input dc tr m hne htr hdc
  rw [h1]
  unfold computeTotalCurrent
  exact computeTotalCurrent_foldl m _ 0

theorem totalCurrent_last_defined_witness :
    (simulateCircuit twoBatteryInput twoBatterySolver).totalCurrent =
      (match ((twoBatteryInput.components.filter (fun c => c.type == "battery")).filterMap
          (fun b => alGet [("I(b1)", (1 : ℚ)), ("I(b2)", 2)] ("I(" ++ b.id ++ ")"))).getLast? with
       | some v => |v|
       | none => 0) :=
  totalCurrent_last_defined twoBatteryInput twoBatterySolver twoBatteryTr
    [("I(b1)", 1), ("I(b2)", 2)] (by decide) (by decide) rfl

/-! ## Decimal representation: `Nat.repr` is injective -/

theorem charVal_digitChar (m : Nat) (hm : m < 10) :
    charVal (Nat.digitChar m) = m := by
  interval_cases m <;> rfl

theorem digitsVal_append (l : List Char) (c : Char) :
    digitsVal (l ++ [c]) = 10 * digitsVal l + charVal c := by
  unfold digitsVal
  rw [List.foldl_append]
  rfl

theorem digitsVal_digitsOf (n : Nat) : digitsVal (digitsOf n) = n := by
  induction n using Nat.strong_induction_on with
  | _ n ih =>
    unfold digitsOf
    by_cases h : n < 10
    · rw [if_pos h]
      show digitsVal [Nat.digitChar n] = n
      unfold digitsVal
      show 10 * 0 + charVal (Nat.digitChar n) = n
      rw [charVal_digitChar n h]
      omega
    · rw [if_neg h]
      rw [digitsVal_append, ih (n / 10) (Nat.div_lt_self (by omega) (by omega)),
        charVal_digitChar (n % 10) (Nat.mod_lt n (by omega))]
      omega

theorem toDigitsCore_eq_digitsOf :
    ∀ (fuel n : Nat) (ds : List Char), n < fuel →
      Nat.toDigitsCore 10 fuel n ds = digitsOf n ++ ds := by
  intro fuel
  induction fuel with
  | zero => intro n ds h; omega
  | succ f ih =>
    intro n ds h
    simp only [Nat.toDigitsCore]
    by_cases h0 : n / 10 = 0
    · have hn10 : n < 10 := by omega
      simp only [h0, if_pos rfl]
      unfold digitsOf
      rw [if_pos hn10, Nat.mod_eq_of_lt hn10]
      rfl
    · have hge : 10 ≤ n := by
        by_contra hc
        exact h0 (Nat.div_eq_of_lt (by omega))
      have hlt : n / 10 < f := by
        have := Nat.div_lt_self (show 0 < n by omega) (show 1 < 10 by omega)
        omega
      simp only [h0, if_neg (by omega : ¬(n / 10 = 0))]
      rw [ih (n / 10) _ hlt]
      conv_rhs => rw [digitsOf]
      rw [if_neg (by omega : ¬n < 10)]
      simp

theorem repr_data_inj (a b : Nat) (h : (Nat.repr a).data = (Nat.repr b).data) :
    a = b := by
  have ha : (Nat.repr a).data = digitsOf a := by
    show (Nat.toDigits 10 a).asString.data = digitsOf a
    unfold Nat.toDigits
    rw [toDigitsCore_eq_digitsOf (a + 1) a [] (by omega)]
    simp [List.asString]
  have hb : (Nat.repr b).data = digitsOf b := by
    show (Nat.toDigits 10 b).asString.data = digitsOf b
    unfold Nat.toDigits
    rw [toDigitsCore_eq_digitsOf (b + 1) b [] (by omega)]
    simp [List.asString]
  rw [ha, hb] at h
  calc a = digitsVal (digitsOf a) := (digitsVal_digitsOf a).symm
    _ = digitsVal (digitsOf b) := by rw [h]
    _ = b := digitsVal_digitsOf b

theorem net_name_inj (k1 k2 : Nat)
    (h : "net" ++ Nat.repr k1 = "net" ++ Nat.repr k2) : k1 = k2 := by
  have hd := congrArg String.data h
  rw [String.data_append, String.data_append] at hd
  exact repr_data_inj _ _ (List.append_cancel_left hd)

theorem net_ne_gnd (s : String) : "net" ++ s ≠ "gnd" := by
  intro h
  have hd := congrArg String.data h
  rw [String.data_append] at hd
  have h1 : ("net" : String).data = ['n', 'e', 't'] := rfl
  have h2 : ("gnd" : String).data = ['g', 'n', 'd'] := rfl
  rw [h1, h2] at hd
  simp at hd

/-! ## Well-formedness of the pipeline's union-find state -/

theorem wfp_foldl {α : Type} (f : UFState → α → UFState)
    (hf : ∀ s a, WFP s.parent → WFP (f s a).parent) :
    ∀ (l : List α) (s : UFState), WFP s.parent → WFP (l.foldl f s).parent := by
  intro l
  induction l with
  | nil => intro s h; exact h
  | cons hd tl ih => intro s h; exact ih _ (hf s hd h)

theorem wfp_foldl_pair {α β : Type} (f : UFState × β → α → UFState × β)
    (hf : ∀ acc a, WFP acc.1.parent → WFP (f acc a).1.parent) :
    ∀ (l : List α) (acc : UFState × β), WFP acc.1.parent →
      WFP ((l.foldl f acc).1).parent := by
  intro l
  induction l with
  | nil => intro acc h; exact h
  | cons hd tl ih => intro acc h; exact ih _ (hf acc hd h)

theorem wfp_buildElectricalNets (nodes : List Node) (connections : List Connection) :
    WFP ((buildElectricalNets nodes connections).1).parent := by
  simp only [buildElectricalNets]
  apply wfp_foldl_pair
  · intro acc n h
    exact (find_spec acc.1 n.id h).2.1
  · apply wfp_foldl
    · intro s c h
      exact (union_spec s c.fromNodeId c.toNodeId h).1
    · apply wfp_foldl
      · intro s n h
        exact wfp_makeSet s n.id h
      · exact wfp_empty

/-! ## `getRoots` characterization -/

theorem dedupFold_mono (r : String → String) :
    ∀ (l : List String) (acc : List String) (x : String), x ∈ acc →
      x ∈ l.foldl (fun acc k => if acc.contains (r k) then acc else acc ++ [r k]) acc := by
  intro l
  induction l with
  | nil => intro acc x hx; exact hx
  | cons hd tl ih =>
    intro acc x hx
    rw [List.foldl_cons]
    apply ih
    by_cases hc : acc.contains (r hd) = true
    · rw [if_pos hc]; exact hx
    · rw [if_neg hc]; exact List.mem_append_left _ hx

theorem mem_dedupFold (r : String → String) :
    ∀ (l : List String) (acc : List String) (k : String), k ∈ l →
      r k ∈ l.foldl (fun acc k => if acc.contains (r k) then acc else acc ++ [r k]) acc := by
  intro l
  induction l with
  | nil => intro acc k h; simp at h
  | cons hd tl ih =>
    intro acc k hmem
    rcases List.mem_cons.mp hmem with he | he
    · subst he
      rw [List.foldl_cons]
      apply dedupFold_mono
      by_cases hc : acc.contains (r k) = true
      · rw [if_pos hc]; exact List.mem_of_elem_eq_true hc
      · rw [if_neg hc]; exact List.mem_append_right _ (List.mem_singleton.mpr rfl)
    · rw [List.foldl_cons]
      exact ih _ k he

theorem dedupFold_nodup (r : String → String) :
    ∀ (l : List String) (acc : List String), acc.Nodup →
      (l.foldl (fun acc k => if acc.contains (r k) then acc
        else acc ++ [r k]) acc).Nodup := by
  intro l
  induction l with
  | nil => intro acc h; exact h
  | cons hd tl ih =>
    intro acc h
    rw [List.foldl_cons]
    apply ih
    by_cases hc : acc.contains (r hd) = true
    · rw [if_pos hc]; exact h
    · rw [if_neg hc]
      have hnm : r hd ∉ acc := fun hm => hc (List.elem_eq_true_of_mem hm)
      simp [List.nodup_append, h, hnm]

theorem getRoots_spec (s : UFState) (wf : WFP s.parent) :
    (UnionFind.getRoots s).1 = rootsList s.parent ∧
    WFP ((UnionFind.getRoots s).2).parent ∧
    (∀ y, rootOf ((UnionFind.getRoots s).2).parent y = rootOf s.parent y) := by
  have haux : ∀ (ks : List String) (racc : List String) (st : UFState),
      WFP st.parent → (∀ y, rootOf st.parent y = rootOf s.parent y) →
      (ks.foldl (fun acc k =>
          let fr := UnionFind.find acc.2 k
          (if acc.1.contains fr.1 then acc.1 else acc.1 ++ [fr.1], fr.2))
        (racc, st)).1 =
        ks.foldl (fun acc k => if acc.contains (rootOf s.parent k) then acc
          else acc ++ [rootOf s.parent k]) racc ∧
      WFP ((ks.foldl (fun acc k =>
          let fr := UnionFind.find acc.2 k
          (if acc.1.contains fr.1 then acc.1 else acc.1 ++ [fr.1], fr.2))
        (racc, st)).2).parent ∧
      (∀ y, rootOf ((ks.foldl (fun acc k =>
          let fr := UnionFind.find acc.2 k
          (if acc.1.contains fr.1 then acc.1 else acc.1 ++ [fr.1], fr.2))
        (racc, st)).2).parent y = rootOf s.parent y) := by
    intro ks
    induction ks with
    | nil => intro racc st h1 h2; exact ⟨rfl, h1, h2⟩
    | cons k ks ih =>
      intro racc st h1 h2
      obtain ⟨f1, f2, f3, _, _, _⟩ := find_spec st k h1
      simp only [List.foldl_cons]
      rw [f1, h2 k]
      exact ih _ _ f2 (fun y => (f3 y).trans (h2 y))
  have h := haux (s.parent.map Prod.fst) [] s wf (fun y => rfl)
  simp only [UnionFind.getRoots, rootsList, keysOf]
  exact ⟨h.1, h.2.1, h.2.2⟩

/-! ## The root-naming loop -/

theorem netNameStep_foldl_preserve (gOpt : Option String) :
    ∀ (l : List String) (acc : List (String × String) × Nat) (key : String),
      key ∉ l →
      alGet ((l.foldl (netNameStep gOpt) acc).1) key = alGet acc.1 key := by
  intro l
  induction l with
  | nil => intro acc key _; rfl
  | cons hd tl ih =>
    intro acc key hkey
    have hne : hd ≠ key := fun h => hkey (h ▸ List.mem_cons_self _ _)
    rw [List.foldl_cons, ih _ key (fun h => hkey (List.mem_cons_of_mem _ h))]
    unfold netNameStep
    split_ifs with h
    · exact alGet_alSet_ne _ _ _ _ (fun h2 => hne h2.symm)
    · exact alGet_alSet_ne _ _ _ _ (fun h2 => hne h2.symm)

theorem netNameStep_foldl_lookup (gr : String) :
    ∀ (l : List String) (acc : List (String × String) × Nat) (i : Nat)
      (hi : i < l.length), l.Nodup → alGet acc.1 (l.get ⟨i, hi⟩) = none →
      alGet ((l.foldl (netNameStep (some gr)) acc).1) (l.get ⟨i, hi⟩) =
      (if l.get ⟨i, hi⟩ = gr then some "gnd"
       else some ("net" ++
         Nat.repr (acc.2 + (l.take i).countP (fun x => !(x == gr))))) := by
  intro l
  induction l with
  | nil => intro acc i hi; simp at hi
  | cons hd tl ih =>
    intro acc i hi hnd hnone
    cases i with
    | zero =>
      have hget : (hd :: tl).get ⟨0, hi⟩ = hd := rfl
      rw [hget] at hnone ⊢
      rw [List.foldl_cons]
      have hnotin : hd ∉ tl := (List.nodup_cons.mp hnd).1
      rw [netNameStep_foldl_preserve (some gr) tl _ hd hnotin]
      unfold netNameStep
      by_cases hg : hd = gr
      · rw [if_pos (by rw [hg]), if_pos hg]
        exact alGet_alSet_self _ _ _
      · rw [if_neg (by simpa using hg), if_neg hg]
        simp only [List.take_zero, List.countP_nil, Nat.add_zero]
        exact alGet_alSet_self _ _ _
    | succ j =>
      have hj : j < tl.length := by simpa using hi
      have hget : (hd :: tl).get ⟨j + 1, hi⟩ = tl.get ⟨j, hj⟩ := rfl
      rw [hget] at hnone ⊢
      rw [List.foldl_cons]
      have hnd2 := (List.nodup_cons.mp hnd).2
      have hnotin : hd ∉ tl := (List.nodup_cons.mp hnd).1
      have hne : hd ≠ tl.get ⟨j, hj⟩ := by
        intro h
        exact hnotin (h ▸ List.get_mem tl j hj)
      have hnone2 : alGet ((netNameStep (some gr) acc hd).1) (tl.get ⟨j, hj⟩) = none := by
        unfold netNameStep
        split_ifs with h
        · rw [alGet_alSet_ne _ _ _ _ (fun h2 => hne h2.symm)]
          exact hnone
        · rw [alGet_alSet_ne _ _ _ _ (fun h2 => hne h2.symm)]
          exact hnone
      rw [ih (netNameStep (some gr) acc hd) j hj hnd2 hnone2]
      by_cases hg : hd = gr
      · have hsnd : (netNameStep (some gr) acc hd).2 = acc.2 := by
          unfold netNameStep
          rw [if_pos (by rw [hg])]
        rw [hsnd]
        have hcnt : ((hd :: tl).take (j + 1)).countP (fun x => !(x == gr)) =
            (tl.take j).countP (fun x => !(x == gr)) := by
          rw [List.take_succ_cons, List.countP_cons]
          simp [hg]
        rw [hcnt]
      · have hsnd : (netNameStep (some gr) acc hd).2 = acc.2 + 1 := by
          unfold netNameStep
          rw [if_neg (by simpa using hg)]
        rw [hsnd]
        have hcnt : ((hd :: tl).take (j + 1)).countP (fun x => !(x == gr)) =
            (tl.take j).countP (fun x => !(x == gr)) + 1 := by
          rw [List.take_succ_cons, List.countP_cons]
          simp [hg]
        rw [hcnt]
        by_cases hget2 : tl.get ⟨j, hj⟩ = gr
        · rw [if_pos hget2, if_pos hget2]
        · rw [if_neg hget2, if_neg hget2]
          have harith : acc.2 + 1 + (tl.take j).countP (fun x => !(x == gr)) =
              acc.2 + ((tl.take j).countP (fun x => !(x == gr)) + 1) := by
            omega
          rw [harith]

/-! ## C4: ground naming and net labels -/

/-- C4: for a well-formed union-find state (as produced once all wire
unions are applied) and a node collection containing a `battery_minus`
node, `assignNetNames` designates the root of the first such node (in
node-collection order) as ground; among the roots enumerated by
`getRoots()` exactly the ground root is named `"gnd"`, every other root at
position `i` is named `"net<k>"` with `k` the 1-based counter value there
(one more than the count of non-ground roots before position `i`, i.e.
incremented in `getRoots()` iteration order), and distinct roots receive
distinct names. -/
theorem assignNetNames_spec (uf : UFState) (nodes : List Node) (n0 : Node)
    (wf : WFP uf.parent)
    (hfind : nodes.find? (fun n => n.role == some "battery_minus") = some n0) :
    (assignNetNames uf nodes).groundNet = some (rootOf uf.parent n0.id) ∧
    rootOf uf.parent n0.id ∈ (UnionFind.getRoots (UnionFind.find uf n0.id).2).1 ∧
    ((UnionFind.getRoots (UnionFind.find uf n0.id).2).1).Nodup ∧
    (∀ r ∈ (UnionFind.getRoots (UnionFind.find uf n0.id).2).1,
      (alGet (assignNetNames uf nodes).netNames r = some "gnd" ↔
        r = rootOf uf.parent n0.id)) ∧
    (∀ (i : Nat) (hi : i < (UnionFind.getRoots (UnionFind.find uf n0.id).2).1.length),
      (UnionFind.getRoots (UnionFind.find uf n0.id).2).1.get ⟨i, hi⟩ ≠
          rootOf uf.parent n0.id →
        alGet (assignNetNames uf nodes).netNames
          ((UnionFind.getRoots (UnionFind.find uf n0.id).2).1.get ⟨i, hi⟩) =
        some ("net" ++ Nat.repr (1 +
          ((UnionFind.getRoots (UnionFind.find uf n0.id).2).1.take i).countP
            (fun x => !(x == rootOf uf.parent n0.id))))) ∧
    (∀ r1 ∈ (UnionFind.getRoots (UnionFind.find uf n0.id).2).1,
     ∀ r2 ∈ (UnionFind.getRoots (UnionFind.find uf n0.id).2).1, r1 ≠ r2 →
      alGet (assignNetNames uf nodes).netNames r1 ≠
        alGet (assignNetNames uf nodes).netNames r2) := by
  obtain ⟨ff1, ff2, ff3, ff4, _, _⟩ := find_spec uf n0.id wf
  obtain ⟨gr1, gr2, gr3⟩ := getRoots_spec (UnionFind.find uf n0.id).2 ff2
  have hassign : assignNetNames uf nodes =
      ⟨(((UnionFind.getRoots (UnionFind.find uf n0.id).2).1).foldl
          (netNameStep (some (rootOf uf.parent n0.id))) ([], 1)).1,
        some (rootOf uf.parent n0.id),
        (UnionFind.getRoots (UnionFind.find uf n0.id).2).2⟩ := by
    simp only [assignNetNames, hfind, ff1]
  have hmem_n0 : n0.id ∈ keysOf (UnionFind.find uf n0.id).2.parent := by
    rw [ff4]
    exact mem_keys_makeSet_self uf n0.id
  have hgr_mem : rootOf uf.parent n0.id ∈
      (UnionFind.getRoots (UnionFind.find uf n0.id).2).1 := by
    rw [gr1]
    have hroot_eq : rootOf (UnionFind.find uf n0.id).2.parent n0.id =
        rootOf uf.parent n0.id := ff3 n0.id
    rw [← hroot_eq]
    unfold rootsList
    exact mem_dedupFold _ _ [] n0.id hmem_n0
  have hnodup : ((UnionFind.getRoots (UnionFind.find uf n0.id).2).1).Nodup := by
    rw [gr1]
    unfold rootsList
    exact dedupFold_nodup _ _ [] List.nodup_nil
  have hlook : ∀ (i : Nat)
      (hi : i < (UnionFind.getRoots (UnionFind.find uf n0.id).2).1.length),
      alGet (assignNetNames uf nodes).netNames
        ((UnionFind.getRoots (UnionFind.find uf n0.id).2).1.get ⟨i, hi⟩) =
      (if (UnionFind.getRoots (UnionFind.find uf n0.id).2).1.get ⟨i, hi⟩ =
          rootOf uf.parent n0.id then some "gnd"
       else some ("net" ++ Nat.repr (1 +
         ((UnionFind.getRoots (UnionFind.find uf n0.id).2).1.take i).countP
           (fun x => !(x == rootOf uf.parent n0.id))))) := by
    intro i hi
    rw [hassign]
    exact netNameStep_foldl_lookup (rootOf uf.parent n0.id) _ ([], 1) i hi hnodup rfl
  have hcount : ∀ (ia ib : Nat)
      (ha : ia < (UnionFind.getRoots (UnionFind.find uf n0.id).2).1.length)
      (_ : ib < (UnionFind.getRoots (UnionFind.find uf n0.id).2).1.length),
      ia < ib →
      (UnionFind.getRoots (UnionFind.find uf n0.id).2).1.get ⟨ia, ha⟩ ≠
        rootOf uf.parent n0.id →
      ((UnionFind.getRoots (UnionFind.find uf n0.id).2).1.take ia).countP
        (fun x => !(x == rootOf uf.parent n0.id)) <
      ((UnionFind.getRoots (UnionFind.find uf n0.id).2).1.take ib).countP
        (fun x => !(x == rootOf uf.parent n0.id)) := by
    intro ia ib ha hb hlt hnegr
    have hsplit : (UnionFind.getRoots (UnionFind.find uf n0.id).2).1.take ib =
        (UnionFind.getRoots (UnionFind.find uf n0.id).2).1.take (ia + 1) ++
        (((UnionFind.getRoots (UnionFind.find uf n0.id).2).1.drop (ia + 1)).take
          (ib - (ia + 1))) := by
      conv_lhs => rw [show ib = (ia + 1) + (ib - (ia + 1)) by omega]
      rw [List.take_add]
    rw [hsplit, List.countP_append]
    have htake1 : ((UnionFind.getRoots (UnionFind.find uf n0.id).2).1.take
        (ia + 1)).countP (fun x => !(x == rootOf uf.parent n0.id)) =
        ((UnionFind.getRoots (UnionFind.find uf n0.id).2).1.take ia).countP
          (fun x => !(x == rootOf uf.parent n0.id)) + 1 := by
      rw [List.take_succ, List.countP_append]
      have hgq : (UnionFind.getRoots (UnionFind.find uf n0.id).2).1[ia]? =
          some ((UnionFind.getRoots (UnionFind.find uf n0.id).2).1.get ⟨ia, ha⟩) := by
        rw [List.getElem?_eq_getElem ha]
        rfl
      rw [hgq]
      simp [hnegr]
      have helt : (!((UnionFind.getRoots (UnionFind.find uf n0.id).2).1[ia] ==
          rootOf uf.parent n0.id)) = true := by
        simp only [Bool.not_eq_true', beq_eq_false_iff_ne]
        exact hnegr
      simp [List.countP_cons, helt]
    omega
  refine ⟨?_, hgr_mem, hnodup, ?_, ?_, ?_⟩
  · rw [hassign]
  · intro r hr
    obtain ⟨⟨i, hi⟩, hget⟩ := List.mem_iff_get.mp hr
    constructor
    · intro hgnd
      by_contra hne
      rw [← hget] at hgnd hne
      rw [hlook i hi, if_neg hne] at hgnd
      exact net_ne_gnd _ (Option.some.inj hgnd)
    · intro he
      rw [← hget] at he ⊢
      rw [hlook i hi, if_pos he]
  · intro i hi hne
    rw [hlook i hi, if_neg hne]
  · intro r1 h1 r2 h2 hne12
    obtain ⟨⟨i1, hi1⟩, hg1⟩ := List.mem_iff_get.mp h1
    obtain ⟨⟨i2, hi2⟩, hg2⟩ := List.mem_iff_get.mp h2
    by_cases hr1g : r1 = rootOf uf.parent n0.id
    · have hr2g : r2 ≠ rootOf uf.parent n0.id := fun h => hne12 (hr1g.trans h.symm)
      have hn1 : alGet (assignNetNames uf nodes).netNames r1 = some "gnd" := by
        rw [← hg1, hlook i1 hi1, if_pos (by rw [hg1]; exact hr1g)]
      have hn2 : alGet (assignNetNames uf nodes).netNames r2 =
          some ("net" ++ Nat.repr (1 +
            ((UnionFind.getRoots (UnionFind.find uf n0.id).2).1.take i2).countP
              (fun x => !(x == rootOf uf.parent n0.id)))) := by
        rw [← hg2, hlook i2 hi2, if_neg (by rw [hg2]; exact hr2g)]
      rw [hn1, hn2]
      intro hcon
      exact net_ne_gnd _ (Option.some.inj hcon).symm
    · by_cases hr2g : r2 = rootOf uf.parent n0.id
      · have hn2 : alGet (assignNetNames uf nodes).netNames r2 = some "gnd" := by
          rw [← hg2, hlook i2 hi2, if_pos (by rw [hg2]; exact hr2g)]
        have hn1 : alGet (assignNetNames uf nodes).netNames r1 =
            some ("net" ++ Nat.repr (1 +
              ((UnionFind.getRoots (UnionFind.find uf n0.id).2).1.take i1).countP
                (fun x => !(x == rootOf uf.parent n0.id)))) := by
          rw [← hg1, hlook i1 hi1, if_neg (by rw [hg1]; exact hr1g)]
        rw [hn1, hn2]
        intro hcon
        exact net_ne_gnd _ (Option.some.inj hcon)
      · have hn1 : alGet (assignNetNames uf nodes).netNames r1 =
            some ("net" ++ Nat.repr (1 +
              ((UnionFind.getRoots (UnionFind.find uf n0.id).2).1.take i1).countP
                (fun x => !(x == rootOf uf.parent n0.id)))) := by
          rw [← hg1, hlook i1 hi1, if_neg (by rw [hg1]; exact hr1g)]
        have hn2 : alGet (assignNetNames uf nodes).netNames r2 =
            some ("net" ++ Nat.repr (1 +
              ((UnionFind.getRoots (UnionFind.find uf n0.id).2).1.take i2).countP
                (fun x => !(x == rootOf uf.parent n0.id)))) := by
          rw [← hg2, hlook i2 hi2, if_neg (by rw [hg2]; exact hr2g)]
        rw [hn1, hn2]
        intro hcon
        have hkeq := net_name_inj _ _ (Option.some.inj hcon)
        have hne_i : i1 ≠ i2 := by
          intro h
          apply hne12
          rw [← hg1, ← hg2]
          congr 1
          exact Fin.ext h
        rcases Nat.lt_or_ge i1 i2 with hlt | hge
        · have := hcount i1 i2 hi1 hi2 hlt (by rw [hg1]; exact hr1g)
          omega
        · have hlt2 : i2 < i1 := by omega
          have := hcount i2 i1 hi2 hi1 hlt2 (by rw [hg2]; exact hr2g)
          omega

theorem assignNetNames_spec_witness :
    (assignNetNames (buildElectricalNets loopInput.nodes loopInput.connections).1
        loopInput.nodes).groundNet =
      some (rootOf
        (buildElectricalNets loopInput.nodes loopInput.connections).1.parent
        (Node.id ⟨"n2", "b1", some "battery_minus"⟩)) :=
  (assignNetNames_spec (buildElectricalNets loopInput.nodes loopInput.connections).1
    loopInput.nodes ⟨"n2", "b1", some "battery_minus"⟩
    (wfp_buildElectricalNets loopInput.nodes loopInput.connections) (by decide)).1

end CircuitLab
